import Mathlib

/-!
Verification of the swapfont substitution and layout-preservation engine.

This file is a shallow embedding of the parts of the `swapfont` code base
that the verified properties speak about:

* `src/swapfont/handlers.py` — `calculate_scale_percent`,
  `get_type3_matrix_ops`, `generate_text_ops`;
* `src/swapfont/engines/layout_engine.py` — `LayoutEngine.set_active_font`,
  `LayoutEngine._initialize_encoding_maps`, `LayoutEngine._map_source_byte`,
  `LayoutEngine._rewrite_string`, `LayoutEngine.rewrite_text_operands`;
* `src/swapfont/models.py` — `SmartEncodingMap.__getitem__`,
  `StrategyOptions`, `FontData._extract_initial_bbox`,
  `FontData._extract_type3_metrics` and its helpers;
* `src/swapfont/core.py` — `_register_required_characters` and the slot
  assignment loop of `_embed_required_fonts`.

Python floats are modelled as exact rationals (ℚ): every arithmetic step the
properties rely on (ratios such as 10/5, clamping, comparisons with the
literal thresholds 1e-3, 1e-5, 1.0) is exact in IEEE double precision at the
inputs of interest, so rational arithmetic gives the same results.
Python dictionaries are modelled as association lists with
insert-or-overwrite semantics and first-match lookup; Python exceptions of
fallible operations are modelled with `Option`/`Except`.
-/

/-- Python values as they occur in the encoding dictionaries of the code
base: the dictionaries mix `int` and `str` keys and values
(`custom_encoding_maps` may map `int → str` or `str → int`;
`ReplacementRule.encoding_map` maps `str` to `int` or `str`). -/
inductive PyVal where
  | vint : ℤ → PyVal
  | vstr : String → PyVal
deriving DecidableEq, Repr

/-- A Python `dict` modelled as an association list (insertion order, unique
keys maintained by `alInsert`). -/
abbrev PyDict := List (PyVal × PyVal)

/-- Python `dict` lookup: first (= unique) entry with the given key. -/
def alGet {κ ν : Type} [DecidableEq κ] (m : List (κ × ν)) (k : κ) : Option ν :=
  (m.find? (fun p => decide (p.1 = k))).map (fun p => p.2)

/-- Python `dict` assignment `m[k] = v`: overwrite in place if the key is
present, else append (insertion order semantics of Python dicts). -/
def alInsert {κ ν : Type} [DecidableEq κ] (m : List (κ × ν)) (k : κ) (v : ν) :
    List (κ × ν) :=
  if m.any (fun p => decide (p.1 = k)) then
    m.map (fun p => if p.1 = k then (k, v) else p)
  else m ++ [(k, v)]

/-- Python's builtin `abs` on numbers. -/
def pyAbs (q : ℚ) : ℚ := if q < 0 then -q else q

/-- Python's banker's rounding of `q` to an integer (`round(q)` semantics:
nearest integer, ties to even). -/
def roundHalfEven (q : ℚ) : ℤ :=
  let f := ⌊q⌋
  let r := q - f
  if r < 1/2 then f
  else if 1/2 < r then f + 1
  else if Even f then f else f + 1

/-- Python's `round(q, 3)`: round to the nearest multiple of 1/1000, ties to
even (binary-representation noise of floats is not modelled). -/
def round3 (q : ℚ) : ℚ := (roundHalfEven (q * 1000) : ℚ) / 1000

/-! ## handlers.py — scale percentage (`calculate_scale_percent`)

The geometric measurement of `input_width` (cursor displacement /
glyph-sum fallback) and `target_width` (target metrics sum) is performed by
collaborating code; the claims quantify over the two resulting widths, so
the embedding takes them as inputs and models the arithmetic of
`calculate_scale_percent` from the width comparison down (lines 66–100 of
`handlers.py`). -/

/-- The `strategy_options` member of a rule: either a `StrategyOptions`
dataclass instance (both attributes always present, models.py lines
111–122) or a plain `dict` whose keys may be missing (`handlers.py` reads it
with `opts.get("min_scale", 50.0)` / `opts.get("max_scale", 200.0)`). -/
inductive StrategyOpts where
  | record : ℚ → ℚ → StrategyOpts
  | dict : Option ℚ → Option ℚ → StrategyOpts
deriving DecidableEq, Repr

/-- `StrategyOptions()` with its dataclass defaults: `min_scale = 95.0`,
`max_scale = 105.0` (models.py lines 117–119).  The first argument of
`StrategyOpts.record` is `min_scale`, the second `max_scale`. -/
def defaultStrategyOptions : StrategyOpts := StrategyOpts.record 95 105

/-- The clamp bounds `(limit_min, limit_max)` computed by
`calculate_scale_percent`: defaults `(50, 200)`, overridden from the active
rule's strategy options — the lower bound only when `user_min > 0`, the
upper bound only when `user_max > user_min`.  `none` models the absence of
an active rule. -/
def scaleLimits (ruleOpts : Option StrategyOpts) : ℚ × ℚ :=
  match ruleOpts with
  | none => (50, 200)
  | some opts =>
    let user_min : ℚ := match opts with
      | StrategyOpts.record mn _ => mn
      | StrategyOpts.dict mn _ => mn.getD 50
    let user_max : ℚ := match opts with
      | StrategyOpts.record _ mx => mx
      | StrategyOpts.dict _ mx => mx.getD 200
    let limit_min : ℚ := if user_min > 0 then user_min else 50
    let limit_max : ℚ := if user_max > user_min then user_max else 200
    (limit_min, limit_max)

/-- `calculate_scale_percent` arithmetic: when both widths exceed `1e-3`,
the ratio times 100 clamped by `max(limit_min, min(sp, limit_max))`;
otherwise the initial value `100.0`. -/
def calculateScalePercent (input_width target_width : ℚ)
    (ruleOpts : Option StrategyOpts) : ℚ :=
  if input_width > 1/1000 ∧ target_width > 1/1000 then
    let sp := input_width / target_width * 100
    let lims := scaleLimits ruleOpts
    max lims.1 (min sp lims.2)
  else 100

/-! ## handlers.py — operator emission (`get_type3_matrix_ops`,
`generate_text_ops`) -/

/-- One byte of a PDF string operand. -/
abbrev Byte := Fin 256

/-- One item of a text-showing operand: a string (its extracted bytes) or a
numeric kerning adjustment. -/
inductive Item where
  | istr : List Byte → Item
  | inum : ℚ → Item
deriving DecidableEq, Repr

/-- A text matrix (`textstate.matrix`), six numbers `[a b c d e f]`;
`d` is the vertical-scale component that `get_type3_matrix_ops` flips. -/
structure Matrix6 where
  a : ℚ
  b : ℚ
  c : ℚ
  d : ℚ
  e : ℚ
  f : ℚ
deriving DecidableEq, Repr

/-- The slice of the tracker state that `get_type3_matrix_ops` reads:
`trm11` is entry `[1,1]` of the text-rendering matrix returned by
`output_state.get_matrices()` (TRM = Tm × CTM, maintained by the excluded
traversal framework), `tm` is `output_state.textstate.matrix`. -/
structure TrackerView where
  trm11 : ℚ
  tm : Matrix6
deriving DecidableEq, Repr

/-- A PDF operator emitted by `generate_text_ops`: a `Tm` (set text
matrix), a `Tz` (horizontal scale), or the text-showing operator itself
with its operands. -/
inductive PdfOp where
  | tm : Matrix6 → PdfOp
  | tz : ℚ → PdfOp
  | text : String → List Item → PdfOp
deriving DecidableEq, Repr

/-- `apply_vals`: the current text matrix with `apply_vals[3]` (the
vertical scale `d`) replaced by its absolute value. -/
def flipVertical (m : Matrix6) : Matrix6 :=
  { m with d := pyAbs m.d }

/-- `get_type3_matrix_ops`: returns `(False, {})` unless the current
Type 3 scale factor deviates from 1.0 by more than 1e-5 and the
text-rendering matrix has negative vertical scale; otherwise the pair of
`Tm` operations that un-flips the text matrix and restores it. -/
def getType3MatrixOps (st : TrackerView) (type3_scale_factor : ℚ) :
    Bool × Option (PdfOp × PdfOp) :=
  if ¬ (pyAbs (type3_scale_factor - 1) > 1/100000) then (false, none)
  else if st.trm11 ≥ 0 then (false, none)
  else (true, some (PdfOp.tm (flipVertical st.tm), PdfOp.tm st.tm))

/-- `generate_text_ops`: builds the emitted operator list by successive
appends, exactly in the source order — Type 3 matrix fix, `Tz` scale set,
the text operator, `Tz 100` reset, matrix restore. -/
def generateTextOps (op : String) (active_operands : List Item)
    (scale_percent : ℚ) (st : TrackerView) (type3_scale_factor : ℚ) :
    List PdfOp :=
  let t3 := getType3MatrixOps st type3_scale_factor
  let ops0 : List PdfOp := []
  let ops1 := match t3 with
    | (true, some p) => ops0 ++ [p.1]
    | _ => ops0
  let ops2 := if pyAbs (scale_percent - 100) > 1 then
      ops1 ++ [PdfOp.tz (round3 scale_percent)] else ops1
  let ops3 := ops2 ++ [PdfOp.text op active_operands]
  let ops4 := if pyAbs (scale_percent - 100) > 1 then
      ops3 ++ [PdfOp.tz 100] else ops3
  let ops5 := match t3 with
    | (true, some p) => ops4 ++ [p.2]
    | _ => ops4
  ops5

/-! ## models.py — `SmartEncodingMap.__getitem__` and hex-key parsing -/

/-- Lowercase hex digit character (`0`–`9`, `a`–`f`). -/
def hexDigitCharLower (d : ℕ) : Char :=
  Char.ofNat (if d < 10 then 48 + d else 87 + d)

/-- Uppercase hex digit character (`0`–`9`, `A`–`F`). -/
def hexDigitCharUpper (d : ℕ) : Char :=
  Char.ofNat (if d < 10 then 48 + d else 55 + d)

/-- Decimal digit character. -/
def decDigitChar (d : ℕ) : Char := Char.ofNat (48 + d)

/-- Base-`b` digits of `n`, least significant first, by fuel-bounded
division (`fuel ≥ n` suffices; structural recursion keeps the definition
kernel-computable). -/
def digitsRevAux (b : ℕ) : ℕ → ℕ → List ℕ
  | 0, _ => []
  | _ + 1, 0 => []
  | fuel + 1, n => n % b :: digitsRevAux b fuel (n / b)

/-- Base-`b` digits of `n`, least significant first (empty for 0). -/
def digitsRev (b n : ℕ) : List ℕ := digitsRevAux b n n

/-- The characters of Python's `f"{n:x}"` (lowercase hex, no prefix). -/
def natHexCharsLower (n : ℕ) : List Char :=
  if n = 0 then ['0'] else (digitsRev 16 n).reverse.map hexDigitCharLower

/-- The characters of Python's `f"{n:X}"` (uppercase hex, no prefix). -/
def natHexCharsUpper (n : ℕ) : List Char :=
  if n = 0 then ['0'] else (digitsRev 16 n).reverse.map hexDigitCharUpper

/-- The characters of Python's `str(n)` for a natural number. -/
def natDecChars (n : ℕ) : List Char :=
  if n = 0 then ['0'] else (digitsRev 10 n).reverse.map decDigitChar

/-- Zero-pad a digit string to width 2 (the `02` in `f"{n:02x}"`). -/
def pad2 (l : List Char) : List Char := if l.length < 2 then '0' :: l else l

/-- Python `f"0x{n:02x}"`. -/
def spellHexLowerPad (n : ℕ) : String := ⟨'0' :: 'x' :: pad2 (natHexCharsLower n)⟩

/-- Python `f"0x{n:x}"`. -/
def spellHexLower (n : ℕ) : String := ⟨'0' :: 'x' :: natHexCharsLower n⟩

/-- Python `f"0X{n:02X}"`. -/
def spellHexUpperPad (n : ℕ) : String := ⟨'0' :: 'X' :: pad2 (natHexCharsUpper n)⟩

/-- Python `f"0X{n:X}"`. -/
def spellHexUpper (n : ℕ) : String := ⟨'0' :: 'X' :: natHexCharsUpper n⟩

/-- Python `str(n)`. -/
def spellDec (n : ℕ) : String := ⟨natDecChars n⟩

/-- Python `f"{n:x}"` without any prefix — the bare hex spelling such as
`"41"` for code point 0x41. -/
def spellBareHexLower (n : ℕ) : String := ⟨natHexCharsLower n⟩

/-- Value of one hex digit character, case insensitive (`int(·, 16)`
digit acceptance). -/
def hexDigitVal (c : Char) : Option ℕ :=
  if 48 ≤ c.toNat ∧ c.toNat ≤ 57 then some (c.toNat - 48)
  else if 97 ≤ c.toNat ∧ c.toNat ≤ 102 then some (c.toNat - 87)
  else if 65 ≤ c.toNat ∧ c.toNat ≤ 70 then some (c.toNat - 55)
  else none

/-- Accumulate base-16 digits left to right; `none` on the first non-digit
or on an empty digit string. -/
def parseHexDigits (l : List Char) : Option ℕ :=
  if l = [] then none
  else l.foldl (fun acc c => match acc, hexDigitVal c with
    | some a, some d => some (16 * a + d)
    | _, _ => none) (some 0)

/-- Strip one optional `0x` / `0X` prefix, as `int(·, 16)` does. -/
def stripHexPrefix (l : List Char) : List Char :=
  match l with
  | c0 :: c1 :: rest =>
    if c0 = '0' ∧ (c1 = 'x' ∨ c1 = 'X') then rest else c0 :: c1 :: rest
  | l => l

/-- Python `int(s, 16)` on a trimmed string: optional sign, optional
`0x`/`0X` prefix, then at least one hex digit; `none` models the
`ValueError` (whitespace and underscore separators are not modelled — the
code base never feeds them). -/
def parseHexPy (s : String) : Option ℤ :=
  match s.data with
  | [] => none
  | c :: rest =>
    if c = '-' then (parseHexDigits (stripHexPrefix rest)).map (fun n => -(n : ℤ))
    else if c = '+' then (parseHexDigits (stripHexPrefix rest)).map (fun n => (n : ℤ))
    else (parseHexDigits (stripHexPrefix (c :: rest))).map (fun n => (n : ℤ))

/-- `SmartEncodingMap.__getitem__` called with an integer code point `key`
(the lookup helper of models.py lines 77–95): first the direct lookup, then
the candidate string spellings `f"0x{key:02x}"`, `f"0x{key:x}"`,
`f"0X{key:02X}"`, `f"0X{key:X}"`, `str(key)` in order; `none` models the
`KeyError`. -/
def smartMapGetInt (m : PyDict) (key : ℕ) : Option PyVal :=
  match alGet m (PyVal.vint key) with
  | some v => some v
  | none =>
    [spellHexLowerPad key, spellHexLower key,
     spellHexUpperPad key, spellHexUpper key,
     spellDec key].findSome? (fun cand => alGet m (PyVal.vstr cand))

/-! ## engines/layout_engine.py — the layout engine -/

/-- The fields of `ReplacementRule` that `LayoutEngine` reads.  The
encoding map keys are strings (literal characters, hex spellings or — after
validation — resolved Unicode names); values are slots (`int`) or literal
characters (`str`). -/
structure Rule where
  source_font_name : String
  target_font_file : String
  target_font_name : String
  encoding_map : List (String × PyVal)
  strategy_options : StrategyOpts
  fontsize_scaling_percentage : ℚ

/-- The fields of a source-font record (`FontData`) that
`set_active_font` reads. -/
structure SourceData where
  is_type3 : Bool
  type3_design_height : ℚ
deriving DecidableEq, Repr

/-- The engine's constructor arguments: the rules of the config, the
target-font cache (modelled by the set of file names present), the
per-file custom encoding maps and the source-font cache. -/
structure EngineEnv where
  rules : List Rule
  target_font_cache : List String
  custom_encoding_maps : List (String × PyDict)
  source_font_cache : List (String × SourceData)

/-- The mutable active state of `LayoutEngine` (its per-font attributes). -/
structure EngineState where
  current_pdf_font_name : Option String
  active_rule : Option Rule
  active_wrapper : Option Unit
  active_font_size : ℚ
  active_target_slot_map : Option PyDict
  active_target_char_map : Option PyDict
  active_source_hex_map : PyDict
  current_type3_scale_factor : ℚ

/-- The engine state as built by `LayoutEngine.__init__`. -/
def initialEngineState : EngineState :=
  { current_pdf_font_name := none
    active_rule := none
    active_wrapper := none
    active_font_size := 1
    active_target_slot_map := none
    active_target_char_map := none
    active_source_hex_map := []
    current_type3_scale_factor := 1 }

/-- `font_name_str.replace("/", "")`. -/
def stripSlashes (s : String) : String :=
  ⟨s.data.filter (fun c => decide (c ≠ '/'))⟩

/-- `target_font_name.lstrip("/")`. -/
def stripLeadingSlashes (s : String) : String :=
  ⟨s.data.dropWhile (fun c => decide (c = '/'))⟩

/-- The three maps built by `LayoutEngine._initialize_encoding_maps`. -/
structure EncodingMaps where
  slotMap : PyDict
  hexMap : PyDict
  charMap : Option PyDict

/-- Step 1 of `_initialize_encoding_maps`: normalize one raw entry of the
file-level custom encoding map — an `(int, str)` pair is flipped to
char → slot, every other pair is inserted as is. -/
def normalizeRawEntry (acc : PyDict) (p : PyVal × PyVal) : PyDict :=
  match p with
  | (PyVal.vint k, PyVal.vstr v) => alInsert acc (PyVal.vstr v) (PyVal.vint k)
  | (k, v) => alInsert acc k v

/-- Steps 1–2 of `_initialize_encoding_maps`: the char → slot map, built
from the file-level map and then overridden by the rule's own entries. -/
def buildSlotMap (raw_map : PyDict) (rule_map : List (String × PyVal)) : PyDict :=
  rule_map.foldl (fun acc p => alInsert acc (PyVal.vstr p.1) p.2)
    (raw_map.foldl normalizeRawEntry [])

/-- Step 2 of `_initialize_encoding_maps`: the source-byte → char map from
the rule's hex-parsable keys (`int(k, 16)`; keys that fail to parse are
skipped). -/
def buildHexMap (rule_map : List (String × PyVal)) : PyDict :=
  rule_map.foldl (fun acc p =>
    match parseHexPy p.1 with
    | some z => alInsert acc (PyVal.vint z) p.2
    | none => acc) []

/-- The dict comprehension `{v: k for k, v in slot_map.items()}`. -/
def pyInvert (m : PyDict) : PyDict :=
  m.foldl (fun acc p => alInsert acc p.2 p.1) []

/-- Step 3 of `_initialize_encoding_maps`: the inverse slot → char map,
`{v: k for k, v in slot_map.items()}` — built only when the slot map is a
non-empty dict (`if self.active_target_slot_map:`). -/
def buildCharMap (slotMap : PyDict) : Option PyDict :=
  if slotMap = [] then none
  else some (pyInvert slotMap)

/-- `LayoutEngine._initialize_encoding_maps`. -/
def initializeEncodingMaps (raw_map : PyDict) (rule_map : List (String × PyVal)) :
    EncodingMaps :=
  let slotMap := buildSlotMap raw_map rule_map
  { slotMap := slotMap
    hexMap := buildHexMap rule_map
    charMap := buildCharMap slotMap }

/-- `LayoutEngine.set_active_font`: resets the whole per-font state, selects
the first matching rule by normalized name comparison, rebuilds the three
encoding maps, applies the Type 3 design-height factor (only for a Type 3
source record with positive height) and the rule's manual scaling
percentage, and returns the new state together with the returned
`(font name, font size)` pair. -/
def setActiveFont (env : EngineEnv) (st : EngineState)
    (font_name : String) (font_size : ℚ) : EngineState × String × ℚ :=
  let clean_name := stripSlashes font_name
  let rule? := env.rules.find?
    (fun r => decide (stripSlashes r.source_font_name = clean_name))
  let st0 : EngineState :=
    { st with
      current_pdf_font_name := some font_name
      active_font_size := font_size
      active_rule := rule?
      active_wrapper := none
      active_target_slot_map := none
      active_target_char_map := none
      active_source_hex_map := []
      current_type3_scale_factor := 1 }
  match rule? with
  | none => (st0, clean_name, font_size)
  | some r =>
    let wrapper : Option Unit :=
      if env.target_font_cache.contains r.target_font_file then some () else none
    let raw_map := (alGet env.custom_encoding_maps r.target_font_file).getD []
    let em := initializeEncodingMaps raw_map r.encoding_map
    let source_data := alGet env.source_font_cache ("/" ++ clean_name)
    let factor_size : ℚ × ℚ :=
      match source_data with
      | some d =>
        if d.is_type3 = true ∧ d.type3_design_height > 0 then
          (d.type3_design_height, font_size * d.type3_design_height)
        else (1, font_size)
      | none => (1, font_size)
    let user_scale := r.fontsize_scaling_percentage
    let final_size :=
      if pyAbs (user_scale - 100) > 1/1000 then
        factor_size.2 * (user_scale / 100)
      else factor_size.2
    let st1 : EngineState :=
      { st0 with
        active_wrapper := wrapper
        active_target_slot_map := some em.slotMap
        active_target_char_map := em.charMap
        active_source_hex_map := em.hexMap
        current_type3_scale_factor := factor_size.1
        active_font_size := final_size }
    (st1, stripLeadingSlashes r.target_font_name, final_size)

/-- The Type 3 selection outcome of a font-selection event: `some d` iff a
rule matches the (normalized) font name and the source-font cache holds a
record for it that is a Type 3 font with positive derived design height —
the exact condition under which `set_active_font` adopts a scale factor. -/
def t3SelectedData (env : EngineEnv) (font_name : String) : Option SourceData :=
  match env.rules.find?
    (fun r => decide (stripSlashes r.source_font_name = stripSlashes font_name)) with
  | none => none
  | some _ =>
    match alGet env.source_font_cache ("/" ++ stripSlashes font_name) with
    | some d =>
      if d.is_type3 = true ∧ d.type3_design_height > 0 then some d else none
    | none => none

/-! ## engines/layout_engine.py — text rewriting -/

/-- Python `chr(b)` for a byte, as a `PyVal` string (always succeeds for
byte values 0–255). -/
def pychr (b : Byte) : PyVal := PyVal.vstr (String.singleton (Char.ofNat b.val))

/-- `LayoutEngine._map_source_byte`: `None` when no rule or slot map is
active; otherwise the rule's hex-keyed source map is consulted first, the
identity `chr(b)` is the fallback, and the resulting character is resolved
through the char → slot map (`None` on `KeyError`). -/
def mapSourceByte (rule_active : Bool) (hexMap slotMap : PyDict) (b : Byte) :
    Option PyVal :=
  if rule_active = false ∨ slotMap = [] then none
  else
    let char_b := (alGet hexMap (PyVal.vint b.val)).getD (pychr b)
    alGet slotMap char_b

/-- The byte emitted for source byte `b` when rewriting succeeds: the slot
byte if the two lookups produced an in-range integer slot, the original
byte when the lookup chain failed. -/
def byteImage (rule_active : Bool) (hexMap slotMap : PyDict) (b : Byte) : Byte :=
  match mapSourceByte rule_active hexMap slotMap b with
  | some (PyVal.vint z) => if h : 0 ≤ z ∧ z.toNat < 256 then ⟨z.toNat, h.2⟩ else b
  | _ => b

/-- `LayoutEngine._rewrite_string` on the extracted bytes of one string
item: each mapped byte is replaced by its slot, each unmapped byte is kept
unchanged.  `bytearray.append` raises (`Except.error`) on a slot outside
0–255 or on a non-integer slot value. -/
def rewriteString (rule_active : Bool) (hexMap slotMap : PyDict) :
    List Byte → Except Unit (List Byte)
  | [] => Except.ok []
  | b :: bs =>
    let step : Except Unit Byte :=
      match mapSourceByte rule_active hexMap slotMap b with
      | some (PyVal.vint z) =>
        if h : 0 ≤ z ∧ z.toNat < 256 then Except.ok ⟨z.toNat, h.2⟩
        else Except.error ()
      | some (PyVal.vstr _) => Except.error ()
      | none => Except.ok b
    match step, rewriteString rule_active hexMap slotMap bs with
    | Except.ok tb, Except.ok rest => Except.ok (tb :: rest)
    | Except.error e, _ => Except.error e
    | _, Except.error e => Except.error e

/-- `LayoutEngine.rewrite_text_operands`.  With no active rule or an empty
slot map the operands pass through unchanged.  For `TJ` the single operand
is the array; it is represented here directly by its item list, numbers
pass through and strings are rewritten.  For `Tj`/`'`/`"` the first operand
is the string and the remaining operands pass through. -/
def rewriteTextOperands (rule_active : Bool) (hexMap slotMap : PyDict)
    (op : String) (operands : List Item) : Except Unit (List Item) :=
  if rule_active = false ∨ slotMap = [] then Except.ok operands
  else if op = "TJ" then
    operands.foldr (fun item acc =>
      match acc with
      | Except.error e => Except.error e
      | Except.ok rest =>
        match item with
        | Item.inum q => Except.ok (Item.inum q :: rest)
        | Item.istr s =>
          match rewriteString rule_active hexMap slotMap s with
          | Except.ok t => Except.ok (Item.istr t :: rest)
          | Except.error e => Except.error e) (Except.ok [])
  else
    match operands with
    | Item.istr s :: rest =>
      match rewriteString rule_active hexMap slotMap s with
      | Except.ok t => Except.ok (Item.istr t :: rest)
      | Except.error e => Except.error e
    | _ => Except.error ()

/-- A slot value acceptable to `bytearray.append`: an `int` in 0–255. -/
def isByteSlot : PyVal → Bool
  | PyVal.vint z => decide (0 ≤ z ∧ z < 256)
  | PyVal.vstr _ => false

/-- The image of one operand item under the byte rewrite: strings map
bytewise through `byteImage`, kerning numbers pass through unchanged. -/
def itemImage (rule_active : Bool) (hexMap slotMap : PyDict) : Item → Item
  | Item.istr s => Item.istr (s.map (byteImage rule_active hexMap slotMap))
  | Item.inum q => Item.inum q

/-! ## core.py — character registration and slot assignment -/

/-- `_register_required_characters`: walk every rule encoding-map value
string, skip characters in the ASCII identity range 32–126, and insert
every other character with the placeholder slot `-1` if it is not yet
present.  (Integer-valued encoding-map entries would make the Python
`for char in mapping_target` raise; the code base only feeds string
values, so values are strings here.) -/
def registerStep (acc : List (Char × ℤ)) (c : Char) : List (Char × ℤ) :=
  if 32 ≤ c.toNat ∧ c.toNat ≤ 126 then acc
  else if (alGet acc c).isSome then acc
  else alInsert acc c (-1)

/-- `_register_required_characters` over all the rule's encoding-map value
strings. -/
def registerRequiredChars (vals : List String) (m : List (Char × ℤ)) :
    List (Char × ℤ) :=
  vals.foldl (fun acc v => v.data.foldl registerStep acc) m

/-- `sorted(needed_chars)`: Python sorts the single-character strings by
code point (a stable sort; insertion sort computes the same list). -/
def sortedChars (l : List Char) : List Char :=
  l.insertionSort (fun a b => a ≤ b)

/-- The slot-assignment loop of `_embed_required_fonts`: the keys of the
collected encoding map, in ascending character order, receive the slots
`128, 129, 130, …` (`next_slot` starts at 128 and only ever increments). -/
def assignSlots (m : List (Char × ℤ)) : List (Char × ℤ) :=
  let needed := m.map (fun p => p.1)
  (sortedChars needed).enum.foldl
    (fun acc p => alInsert acc p.2 (128 + (p.1 : ℤ))) m

/-- 129 consecutive non-ASCII characters (code points 161–289). -/
def bigChars : List Char := (List.range 129).map (fun i => Char.ofNat (161 + i))

/-- An encoding-map value string carrying 129 distinct non-ASCII
characters. -/
def bigVal : String := ⟨bigChars⟩

/-! ## models.py — Type 3 metrics extraction (`FontData`) -/

/-- A PDF object appearing as an operand or array element: a number
(convertible by `float(·)`) or anything else (for which `float(·)`
raises). -/
inductive PdfVal where
  | num : ℚ → PdfVal
  | other : PdfVal
deriving DecidableEq, Repr

/-- `float(x)` on a PDF operand: `none` models the
`ValueError`/`TypeError`. -/
def toFloat : PdfVal → Option ℚ
  | PdfVal.num q => some q
  | PdfVal.other => none

/-- One parsed content-stream instruction: its operand list and operator. -/
structure Instr where
  operands : List PdfVal
  operator : String
deriving DecidableEq, Repr

/-- The result of `parse_content_stream` on one glyph program:
`Except.error` models a raised `PdfError`/`RuntimeError` (caught and
logged by `_process_charproc_sample`). -/
abbrev GlyphProg := Except Unit (List Instr)

/-- The `bounds` accumulator of `_extract_type3_metrics`.  The Python code
initializes the four extrema with `±inf`; `none` plays that role here —
whenever `valid_samples > 0` all four are `some`. -/
structure T3Bounds where
  min_llx : Option ℚ
  max_urx : Option ℚ
  min_lly : Option ℚ
  max_ury : Option ℚ
  valid_samples : ℕ
deriving DecidableEq, Repr

/-- The initial bounds: extrema at `±inf`, zero valid samples. -/
def initialT3Bounds : T3Bounds := ⟨none, none, none, none, 0⟩

/-- Fold a new value into a running minimum started at `+inf`. -/
def optMin (o : Option ℚ) (x : ℚ) : Option ℚ :=
  some (match o with | none => x | some m => min m x)

/-- Fold a new value into a running maximum started at `-inf`. -/
def optMax (o : Option ℚ) (x : ℚ) : Option ℚ :=
  some (match o with | none => x | some m => max m x)

/-- `_update_bounds_from_operands`: a `d1` instruction with fewer than six
operands, or with a non-numeric operand among `operands[2:6]`, contributes
nothing; otherwise the bounding-box corners update the extrema and
`valid_samples` increments.  The Python unpacking of `map(float, …)`
happens before any field is written, so the failure case is atomic. -/
def updateBoundsFromOperands (operands : List PdfVal) (b : T3Bounds) : T3Bounds :=
  if operands.length < 6 then b
  else
    match toFloat (operands.getD 2 PdfVal.other),
        toFloat (operands.getD 3 PdfVal.other),
        toFloat (operands.getD 4 PdfVal.other),
        toFloat (operands.getD 5 PdfVal.other) with
    | some llx, some lly, some urx, some ury =>
      { min_llx := optMin b.min_llx llx
        max_urx := optMax b.max_urx urx
        min_lly := optMin b.min_lly lly
        max_ury := optMax b.max_ury ury
        valid_samples := b.valid_samples + 1 }
    | _, _, _, _ => b

/-- `_process_charproc_sample`: a glyph whose program failed to parse is
skipped (the exception is caught and logged); otherwise the first `d1`
instruction, if any, updates the bounds. -/
def processCharprocSample (g : GlyphProg) (b : T3Bounds) : T3Bounds :=
  match g with
  | Except.error _ => b
  | Except.ok instrs =>
    match instrs.find? (fun i => decide (i.operator = "d1")) with
    | none => b
    | some i => updateBoundsFromOperands i.operands b

/-- `_extract_type3_metrics` on the `(design_height, design_width)` pair:
`h0`/`w0` are the values already stored on the `FontData` instance
(`h0` from `_extract_initial_bbox`, `w0 = 0.0`); `none` models a font
dictionary without `/CharProcs`.  The scan result replaces the stored pair
only when at least one glyph parsed and `max_ury > min_lly`. -/
def extractType3Metrics (h0 w0 : ℚ) (charProcs : Option (List GlyphProg)) :
    ℚ × ℚ :=
  match charProcs with
  | none => (h0, w0)
  | some gs =>
    if gs.isEmpty then (h0, w0)
    else
      let b := gs.foldl (fun acc g => processCharprocSample g acc) initialT3Bounds
      match b.max_ury, b.min_lly, b.max_urx, b.min_llx with
      | some uy, some ly, some ux, some lx =>
        if 0 < b.valid_samples ∧ ly < uy then (uy - ly, ux - lx) else (h0, w0)
      | _, _, _, _ => (h0, w0)

/-- `_extract_initial_bbox`: the design height seeded from a 4-element
`/FontBBox` with numeric entries at positions 1 and 3 (`bbox[3] − bbox[1]`),
0.0 otherwise. -/
def extractInitialBBox (fontBBox : Option (List PdfVal)) : ℚ :=
  match fontBBox with
  | none => 0
  | some l =>
    if l.length = 4 then
      match toFloat (l.getD 3 PdfVal.other), toFloat (l.getD 1 PdfVal.other) with
      | some b3, some b1 => b3 - b1
      | _, _ => 0
    else 0

/-- The `(type3_design_height, type3_design_width)` pair of a Type 3
`FontData` after `__init__`: height seeded by `_extract_initial_bbox`,
width 0.0, then both overwritten by `_extract_type3_metrics` when the
glyph scan succeeds. -/
def type3DesignMetrics (fontBBox : Option (List PdfVal))
    (charProcs : Option (List GlyphProg)) : ℚ × ℚ :=
  extractType3Metrics (extractInitialBBox fontBBox) 0 charProcs

/-- A rule for a Type 3 source font, used by the font-selection witness
environment. -/
def ruleType3W : Rule :=
  { source_font_name := "/Type3Font", target_font_file := "T.ttf",
    target_font_name := "/F_New", encoding_map := [],
    strategy_options := defaultStrategyOptions,
    fontsize_scaling_percentage := 100 }

/-- A rule for a standard source font, used by the font-selection witness
environment. -/
def ruleStdW : Rule :=
  { source_font_name := "/StandardFont", target_font_file := "T.ttf",
    target_font_name := "/F_Std", encoding_map := [],
    strategy_options := defaultStrategyOptions,
    fontsize_scaling_percentage := 100 }

/-- A concrete engine environment: both rules, their target file cached,
and source records for a Type 3 font of design height 2 and a standard
font. -/
def envW : EngineEnv :=
  { rules := [ruleType3W, ruleStdW], target_font_cache := ["T.ttf"],
    custom_encoding_maps := [],
    source_font_cache :=
      [("/Type3Font", ⟨true, 2⟩), ("/StandardFont", ⟨false, 0⟩)] }

/-! ## Association-list lemmas (Python dict semantics) -/

/-- The key list of an association list. -/
def alKeys {κ ν : Type} (m : List (κ × ν)) : List κ := m.map (fun p => p.1)

/-- An association list with pairwise-distinct keys (the invariant of every
Python dict). -/
def alNodupKeys {κ ν : Type} (m : List (κ × ν)) : Prop := (alKeys m).Nodup

theorem alGet_cons {κ ν : Type} [DecidableEq κ] (p : κ × ν) (m : List (κ × ν))
    (k : κ) : alGet (p :: m) k = if p.1 = k then some p.2 else alGet m k := by
  by_cases h : p.1 = k
  · simp [alGet, List.find?_cons, h]
  · simp [alGet, List.find?_cons, h]

theorem alGet_mem {κ ν : Type} [DecidableEq κ] {m : List (κ × ν)} {k : κ} {v : ν}
    (h : alGet m k = some v) : (k, v) ∈ m := by
  induction m with
  | nil => simp [alGet] at h
  | cons p rest ih =>
    rw [alGet_cons] at h
    by_cases hp : p.1 = k
    · rw [if_pos hp] at h
      have : p = (k, v) := by
        cases p
        simp_all
      simp [this]
    · rw [if_neg hp] at h
      exact List.mem_cons_of_mem _ (ih h)

theorem alGet_some_key_mem {κ ν : Type} [DecidableEq κ] {m : List (κ × ν)}
    {k : κ} {v : ν} (h : alGet m k = some v) : k ∈ alKeys m := by
  have := alGet_mem h
  simp only [alKeys, List.mem_map]
  exact ⟨(k, v), this, rfl⟩

theorem alKeys_cons {κ ν : Type} (p : κ × ν) (m : List (κ × ν)) :
    alKeys (p :: m) = p.1 :: alKeys m := rfl

theorem alGet_eq_none_iff {κ ν : Type} [DecidableEq κ] {m : List (κ × ν)}
    {k : κ} : alGet m k = none ↔ k ∉ alKeys m := by
  constructor
  · intro h hk
    rcases List.mem_map.mp hk with ⟨p, hp, he⟩
    have hfind : List.find? (fun p => decide (p.1 = k)) m = none :=
      Option.map_eq_none'.mp h
    exact List.find?_eq_none.mp hfind p hp (decide_eq_true he)
  · intro h
    unfold alGet
    rw [Option.map_eq_none', List.find?_eq_none]
    intro p hp hdec
    exact h ((of_decide_eq_true hdec) ▸ List.mem_map_of_mem _ hp)

theorem alGet_map_overwrite {κ ν : Type} [DecidableEq κ] (m : List (κ × ν))
    (k : κ) (v : ν) (h : k ∈ alKeys m) :
    alGet (m.map (fun p => if p.1 = k then (k, v) else p)) k = some v := by
  induction m with
  | nil => simp [alKeys] at h
  | cons p rest ih =>
    by_cases hp : p.1 = k
    · simp [hp, alGet_cons]
    · have hmem : k ∈ alKeys rest := by
        rw [alKeys_cons] at h
        rcases List.mem_cons.mp h with he | hm
        · exact absurd he.symm hp
        · exact hm
      simp [hp, alGet_cons, ih hmem]

theorem alGet_map_overwrite_ne {κ ν : Type} [DecidableEq κ] (m : List (κ × ν))
    (k : κ) (v : ν) (q : κ) (h : q ≠ k) :
    alGet (m.map (fun p => if p.1 = k then (k, v) else p)) q = alGet m q := by
  induction m with
  | nil => simp
  | cons p rest ih =>
    by_cases hp : p.1 = k
    · have : k ≠ q := fun he => h he.symm
      simp [hp, alGet_cons, this, ih]
    · simp only [List.map_cons, if_neg hp, alGet_cons, ih]

theorem alGet_alInsert_self {κ ν : Type} [DecidableEq κ] (m : List (κ × ν))
    (k : κ) (v : ν) : alGet (alInsert m k v) k = some v := by
  unfold alInsert
  by_cases hany : m.any (fun p => decide (p.1 = k)) = true
  · rw [if_pos hany]
    have hk : k ∈ alKeys m := by
      rcases List.any_eq_true.mp hany with ⟨p, hp, hdec⟩
      have : p.1 = k := of_decide_eq_true hdec
      exact this ▸ List.mem_map_of_mem _ hp
    exact alGet_map_overwrite m k v hk
  · rw [if_neg hany]
    have hnone : List.find? (fun p => decide (p.1 = k)) m = none := by
      rw [List.find?_eq_none]
      intro p hp hdec
      exact hany (List.any_eq_true.mpr ⟨p, hp, hdec⟩)
    unfold alGet
    rw [List.find?_append, hnone]
    simp [List.find?_cons]

theorem alGet_alInsert_ne {κ ν : Type} [DecidableEq κ] (m : List (κ × ν))
    (k : κ) (v : ν) (q : κ) (h : q ≠ k) :
    alGet (alInsert m k v) q = alGet m q := by
  unfold alInsert
  by_cases hany : m.any (fun p => decide (p.1 = k)) = true
  · rw [if_pos hany]
    exact alGet_map_overwrite_ne m k v q h
  · rw [if_neg hany]
    have hsingle : List.find? (fun p => decide (p.1 = q)) [(k, v)] = none := by
      have hkq : ¬ ((k, v).1 = q) := fun he => h he.symm
      simp [List.find?_cons, hkq]
    unfold alGet
    rw [List.find?_append, hsingle]
    cases List.find? (fun p => decide (p.1 = q)) m <;> simp

theorem alKeys_alInsert_mem {κ ν : Type} [DecidableEq κ] {m : List (κ × ν)}
    {k : κ} (v : ν) (h : k ∈ alKeys m) : alKeys (alInsert m k v) = alKeys m := by
  unfold alInsert
  have hany : m.any (fun p => decide (p.1 = k)) = true := by
    rcases List.mem_map.mp h with ⟨p, hp, he⟩
    exact List.any_eq_true.mpr ⟨p, hp, decide_eq_true he⟩
  rw [if_pos hany]
  simp only [alKeys, List.map_map]
  apply List.map_congr_left
  intro p _
  by_cases hp : p.1 = k
  · simp [hp]
  · simp [hp]

theorem alKeys_alInsert_not_mem {κ ν : Type} [DecidableEq κ] {m : List (κ × ν)}
    {k : κ} (v : ν) (h : k ∉ alKeys m) :
    alKeys (alInsert m k v) = alKeys m ++ [k] := by
  unfold alInsert
  have hany : ¬ (m.any (fun p => decide (p.1 = k)) = true) := by
    intro hc
    rcases List.any_eq_true.mp hc with ⟨p, hp, hdec⟩
    exact h ((of_decide_eq_true hdec) ▸ List.mem_map_of_mem _ hp)
  rw [if_neg hany]
  simp [alKeys]

theorem alNodupKeys_alInsert {κ ν : Type} [DecidableEq κ] {m : List (κ × ν)}
    {k : κ} (v : ν) (h : alNodupKeys m) : alNodupKeys (alInsert m k v) := by
  unfold alNodupKeys
  by_cases hk : k ∈ alKeys m
  · rw [alKeys_alInsert_mem v hk]
    exact h
  · rw [alKeys_alInsert_not_mem v hk]
    simp only [List.nodup_append, List.nodup_cons, List.not_mem_nil,
      not_false_iff, List.nodup_nil, and_true, true_and]
    constructor
    · exact h
    · intro a ha
      simp only [List.mem_singleton]
      intro he
      exact hk (he ▸ ha)

/-! ## Claim theorems — scale percentage and operator emission -/

theorem scaleLimits_record (mn mx : ℚ) :
    scaleLimits (some (StrategyOpts.record mn mx)) =
      ((if 0 < mn then mn else 50), (if mn < mx then mx else 200)) := rfl

/-- C2: for source and target widths both above the 1e-3 epsilon and
honored clamp bounds `0 < min_scale < max_scale`, the scale percentage is
`(s/t)·100` clamped to `[min_scale, max_scale]`; when either width is not
above the epsilon the result is exactly 100; and for `s = 10.0, t = 5.0,
min = 1, max = 1000` the result is exactly 200. -/
theorem scale_percent_formula :
    (∀ s t mn mx : ℚ, 0 < mn → mn < mx → 1/1000 < s → 1/1000 < t →
      calculateScalePercent s t (some (StrategyOpts.record mn mx)) =
        max mn (min (s / t * 100) mx))
    ∧ (∀ (s t : ℚ) (opts : Option StrategyOpts),
        ¬ (1/1000 < s ∧ 1/1000 < t) → calculateScalePercent s t opts = 100)
    ∧ calculateScalePercent 10 5 (some (StrategyOpts.record 1 1000)) = 200 := by
  refine ⟨?_, ?_, ?_⟩
  · intro s t mn mx hmn hmx hs ht
    simp only [calculateScalePercent]
    rw [if_pos (And.intro hs ht)]
    simp [scaleLimits_record, hmn, hmx]
  · intro s t opts h
    simp only [calculateScalePercent]
    rw [if_neg h]
  · norm_num [calculateScalePercent, scaleLimits]

/-- C2 witness: the theorem applied at `s = 10, t = 5, min = 1,
max = 1000`. -/
theorem scale_percent_formula_witness :
    calculateScalePercent 10 5 (some (StrategyOpts.record 1 1000)) =
      max 1 (min (10 / 5 * 100) 1000) :=
  scale_percent_formula.1 10 5 1 1000 (by norm_num) (by norm_num)
    (by norm_num) (by norm_num)

theorem getType3MatrixOps_eq (st : TrackerView) (factor : ℚ) :
    getType3MatrixOps st factor =
      if pyAbs (factor - 1) > 1/100000 ∧ st.trm11 < 0 then
        (true, some (PdfOp.tm (flipVertical st.tm), PdfOp.tm st.tm))
      else (false, none) := by
  unfold getType3MatrixOps
  by_cases h1 : pyAbs (factor - 1) > 1/100000
  · by_cases h2 : st.trm11 < 0
    · rw [if_neg (not_not_intro h1), if_neg (not_le.mpr h2), if_pos ⟨h1, h2⟩]
    · rw [if_neg (not_not_intro h1), if_pos (not_lt.mp h2),
        if_neg (fun hc => h2 hc.2)]
  · rw [if_pos h1, if_neg (fun hc => h1 hc.1)]

/-- C6: the emitted operator list of `generate_text_ops` has the fixed
nested structure — the matrix-flip pair (present iff the Type 3 factor is
active and the text-rendering matrix's vertical scale is negative)
outermost, the `Tz` scale pair (present iff the scale percentage deviates
from 100 by more than 1 point) inside it, the single text operator
innermost; a `Tm` operator appears iff the first condition holds and a `Tz`
operator appears iff the second does, so neither state change extends past
the one text operation. -/
theorem generate_text_ops_structure (op : String) (operands : List Item)
    (sp : ℚ) (st : TrackerView) (factor : ℚ) :
    generateTextOps op operands sp st factor =
      (if pyAbs (factor - 1) > 1/100000 ∧ st.trm11 < 0 then
        [PdfOp.tm (flipVertical st.tm)] else [])
      ++ (if pyAbs (sp - 100) > 1 then [PdfOp.tz (round3 sp)] else [])
      ++ [PdfOp.text op operands]
      ++ (if pyAbs (sp - 100) > 1 then [PdfOp.tz 100] else [])
      ++ (if pyAbs (factor - 1) > 1/100000 ∧ st.trm11 < 0 then
        [PdfOp.tm st.tm] else [])
    ∧ ((∃ m, PdfOp.tm m ∈ generateTextOps op operands sp st factor) ↔
        (pyAbs (factor - 1) > 1/100000 ∧ st.trm11 < 0))
    ∧ ((∃ z, PdfOp.tz z ∈ generateTextOps op operands sp st factor) ↔
        pyAbs (sp - 100) > 1) := by
  have hl : generateTextOps op operands sp st factor =
      (if pyAbs (factor - 1) > 1/100000 ∧ st.trm11 < 0 then
        [PdfOp.tm (flipVertical st.tm)] else [])
      ++ (if pyAbs (sp - 100) > 1 then [PdfOp.tz (round3 sp)] else [])
      ++ [PdfOp.text op operands]
      ++ (if pyAbs (sp - 100) > 1 then [PdfOp.tz 100] else [])
      ++ (if pyAbs (factor - 1) > 1/100000 ∧ st.trm11 < 0 then
        [PdfOp.tm st.tm] else []) := by
    unfold generateTextOps
    rw [getType3MatrixOps_eq st factor]
    by_cases h1 : pyAbs (factor - 1) > 1/100000 ∧ st.trm11 < 0
    · rw [if_pos h1]
      by_cases h2 : pyAbs (sp - 100) > 1
      · simp only [if_pos h1, if_pos h2]
        simp
      · simp only [if_pos h1, if_neg h2]
        simp
    · rw [if_neg h1]
      by_cases h2 : pyAbs (sp - 100) > 1
      · simp only [if_neg h1, if_pos h2]
        simp
      · simp only [if_neg h1, if_neg h2]
        simp
  refine ⟨hl, ?_, ?_⟩
  · rw [hl]
    constructor
    · rintro ⟨m, hm⟩
      by_contra hc
      simp only [if_neg hc] at hm
      by_cases h2 : pyAbs (sp - 100) > 1 <;> simp [h2] at hm
    · intro hc
      refine ⟨flipVertical st.tm, ?_⟩
      simp only [if_pos hc]
      simp [List.mem_append]
  · rw [hl]
    constructor
    · rintro ⟨z, hm⟩
      by_contra hc
      simp only [if_neg hc] at hm
      by_cases h1 : pyAbs (factor - 1) > 1/100000 ∧ st.trm11 < 0 <;>
        simp [h1] at hm
    · intro hc
      refine ⟨round3 sp, ?_⟩
      simp only [if_pos hc]
      simp [List.mem_append]

/-- C3 counterexample: a rule whose strategy options are the default
`StrategyOptions()` record clamps with bounds `[95, 105]`, not `[50, 200]`:
for source width 10.0 and target width 5.0 the computed scale percentage is
105, the emitted sequence carries `Tz 105` before the text operator, and no
`Tz 200` is emitted anywhere. -/
theorem default_clamp_counterexample :
    calculateScalePercent 10 5 (some defaultStrategyOptions) = 105
    ∧ ((105 : ℚ) ≠ 200)
    ∧ generateTextOps "Tj" []
        (calculateScalePercent 10 5 (some defaultStrategyOptions))
        ⟨1, ⟨1, 0, 0, 1, 0, 0⟩⟩ 1 =
      [PdfOp.tz 105, PdfOp.text "Tj" [], PdfOp.tz 100]
    ∧ PdfOp.tz 200 ∉ generateTextOps "Tj" []
        (calculateScalePercent 10 5 (some defaultStrategyOptions))
        ⟨1, ⟨1, 0, 0, 1, 0, 0⟩⟩ 1 := by
  have h105 : calculateScalePercent 10 5 (some defaultStrategyOptions) = 105 := by
    norm_num [calculateScalePercent, scaleLimits, defaultStrategyOptions]
  have hr : round3 105 = 105 := by norm_num [round3, roundHalfEven]
  have hno : ¬ (pyAbs ((1 : ℚ) - 1) > 1/100000 ∧
      (⟨1, ⟨1, 0, 0, 1, 0, 0⟩⟩ : TrackerView).trm11 < 0) := by
    norm_num [pyAbs]
  have hops : generateTextOps "Tj" [] 105 ⟨1, ⟨1, 0, 0, 1, 0, 0⟩⟩ 1 =
      [PdfOp.tz 105, PdfOp.text "Tj" [], PdfOp.tz 100] := by
    unfold generateTextOps
    rw [getType3MatrixOps_eq, if_neg hno]
    have h2 : pyAbs ((105 : ℚ) - 100) > 1 := by norm_num [pyAbs]
    simp only [if_pos h2]
    simp [hr]
  refine ⟨h105, by norm_num, ?_, ?_⟩
  · rw [h105]
    exact hops
  · rw [h105, hops]
    intro hmem
    simp only [List.mem_cons, List.not_mem_nil, or_false] at hmem
    rcases hmem with h | h | h
    · rw [PdfOp.tz.injEq] at h
      norm_num at h
    · exact PdfOp.noConfusion h
    · rw [PdfOp.tz.injEq] at h
      norm_num at h

/-- C3 amended: a rule with the default `StrategyOptions()` clamps to
`[95, 105]` (so 10.0pt over 5.0pt emits a scale-set to 105 before the text
operator and a reset to 100 after it); the `[50, 200]` defaults apply only
with no active rule or with a dict-shaped options value missing the keys;
override bounds are honored exactly when the lower bound is > 0 and the
upper bound exceeds the (raw) lower bound, malformed values falling back to
the defaults. -/
theorem default_clamp_bounds :
    scaleLimits (some defaultStrategyOptions) = (95, 105)
    ∧ (∀ s t : ℚ, 1/1000 < s → 1/1000 < t →
        calculateScalePercent s t (some defaultStrategyOptions) =
          max 95 (min (s / t * 100) 105))
    ∧ (∀ (ops : List Item) (v : TrackerView),
        generateTextOps "Tj" ops
          (calculateScalePercent 10 5 (some defaultStrategyOptions)) v 1 =
        [PdfOp.tz 105, PdfOp.text "Tj" ops, PdfOp.tz 100])
    ∧ (∀ mn mx : ℚ, scaleLimits (some (StrategyOpts.record mn mx)) =
        ((if 0 < mn then mn else 50), (if mn < mx then mx else 200)))
    ∧ scaleLimits (some (StrategyOpts.dict none none)) = (50, 200)
    ∧ scaleLimits none = (50, 200) := by
  have h105 : calculateScalePercent 10 5 (some defaultStrategyOptions) = 105 := by
    norm_num [calculateScalePercent, scaleLimits, defaultStrategyOptions]
  have hr : round3 105 = 105 := by norm_num [round3, roundHalfEven]
  refine ⟨rfl, ?_, ?_, scaleLimits_record, by norm_num [scaleLimits], rfl⟩
  · intro s t hs ht
    simp only [calculateScalePercent]
    rw [if_pos (And.intro hs ht)]
    norm_num [scaleLimits, defaultStrategyOptions]
  · intro ops v
    rw [h105]
    have hno : ¬ (pyAbs ((1 : ℚ) - 1) > 1/100000 ∧ v.trm11 < 0) := by
      norm_num [pyAbs]
    unfold generateTextOps
    rw [getType3MatrixOps_eq, if_neg hno]
    have h2 : pyAbs ((105 : ℚ) - 100) > 1 := by norm_num [pyAbs]
    simp only [if_pos h2]
    simp [hr]

/-- C3 witness: the amended clamp formula applied at widths 10 and 5. -/
theorem default_clamp_bounds_witness :
    calculateScalePercent 10 5 (some defaultStrategyOptions) =
      max 95 (min (10 / 5 * 100) 105) :=
  default_clamp_bounds.2.1 10 5 (by norm_num) (by norm_num)

/-! ## Claim theorems — font-selection transitions -/

/-- C4: on every font-selection event the draw-program (Type 3) scale
factor ends the transition at exactly 1.0 unless the selected font has a
matching rule and a Type 3 source record with positive derived design
height — including when no rule matches, and regardless of the factor left
by any previously selected font (the prior state `st` is arbitrary); when
such a record exists the factor ends at its design height. -/
theorem type3_scale_factor_transition (env : EngineEnv) (st : EngineState)
    (font_name : String) (font_size : ℚ) :
    (t3SelectedData env font_name = none →
      (setActiveFont env st font_name font_size).1.current_type3_scale_factor = 1)
    ∧ (∀ d, t3SelectedData env font_name = some d →
      (setActiveFont env st font_name font_size).1.current_type3_scale_factor =
        d.type3_design_height) := by
  cases hr : env.rules.find?
      (fun r => decide (stripSlashes r.source_font_name = stripSlashes font_name)) with
  | none =>
    constructor
    · intro _
      simp [setActiveFont, hr]
    · intro d hd
      simp [t3SelectedData, hr] at hd
  | some r =>
    cases hs : alGet env.source_font_cache ("/" ++ stripSlashes font_name) with
    | none =>
      constructor
      · intro _
        simp [setActiveFont, hr, hs]
      · intro d hd
        simp [t3SelectedData, hr, hs] at hd
    | some sd =>
      by_cases hc : sd.is_type3 = true ∧ sd.type3_design_height > 0
      · constructor
        · intro hnone
          simp [t3SelectedData, hr, hs, hc] at hnone
        · intro d hd
          have hds : d = sd := by
            simp [t3SelectedData, hr, hs, hc] at hd
            exact hd.symm
          subst hds
          simp [setActiveFont, hr, hs, hc]
      · constructor
        · intro _
          simp [setActiveFont, hr, hs, hc]
        · intro d hd
          simp [t3SelectedData, hr, hs, hc] at hd

/-- C4 witness: after selecting the Type 3 font (factor 2), selecting the
standard font on the same engine state resets the factor to exactly 1. -/
theorem type3_scale_factor_transition_witness :
    (setActiveFont envW
      (setActiveFont envW initialEngineState "/Type3Font" 10).1
      "/StandardFont" 10).1.current_type3_scale_factor = 1
    ∧ (setActiveFont envW initialEngineState
        "/Type3Font" 10).1.current_type3_scale_factor =
      (⟨true, 2⟩ : SourceData).type3_design_height :=
  ⟨(type3_scale_factor_transition envW
      (setActiveFont envW initialEngineState "/Type3Font" 10).1
      "/StandardFont" 10).1 (by decide),
   (type3_scale_factor_transition envW initialEngineState
      "/Type3Font" 10).2 ⟨true, 2⟩ (by decide)⟩

/-- C8 counterexample: with no matching rule, `set_active_font` on the PDF
name `"/F1"` returns `"F1"` — the name with the `/` marker stripped — not
the original font name. -/
theorem no_rule_counterexample :
    (setActiveFont ⟨[], [], [], []⟩ initialEngineState "/F1" 12).2.1 = "F1"
    ∧ ("F1" : String) ≠ "/F1" := by
  constructor
  · simp [setActiveFont, stripSlashes]
  · decide

/-- C8 amended: when no rule matches the normalized font name,
`set_active_font` returns the slash-stripped name (equal to the original
whenever it contains no `/`) and the size unchanged, and clears all
active-rule state — rule, wrapper, all three encoding maps, and the
draw-program scale factor. -/
theorem no_rule_clears_state (env : EngineEnv) (st : EngineState)
    (font_name : String) (font_size : ℚ)
    (h : env.rules.find?
      (fun r => decide (stripSlashes r.source_font_name = stripSlashes font_name)) = none) :
    setActiveFont env st font_name font_size =
      ({ st with
          current_pdf_font_name := some font_name
          active_font_size := font_size
          active_rule := none
          active_wrapper := none
          active_target_slot_map := none
          active_target_char_map := none
          active_source_hex_map := []
          current_type3_scale_factor := 1 },
        stripSlashes font_name, font_size)
    ∧ ((∀ c ∈ font_name.data, c ≠ '/') → stripSlashes font_name = font_name) := by
  constructor
  · simp [setActiveFont, h]
  · intro hc
    unfold stripSlashes
    have hf : font_name.data.filter (fun c => decide (c ≠ '/')) = font_name.data :=
      List.filter_eq_self.mpr (fun a ha => decide_eq_true (hc a ha))
    rw [hf]

/-- C8 witness: the amended theorem applied to an empty rule set with a
slash-free font name. -/
theorem no_rule_clears_state_witness :
    setActiveFont ⟨[], [], [], []⟩ initialEngineState "F1" 12 =
      ({ initialEngineState with
          current_pdf_font_name := some "F1"
          active_font_size := 12
          active_rule := none
          active_wrapper := none
          active_target_slot_map := none
          active_target_char_map := none
          active_source_hex_map := []
          current_type3_scale_factor := 1 },
        stripSlashes "F1", 12)
    ∧ ((∀ c ∈ ("F1" : String).data, c ≠ '/') → stripSlashes "F1" = "F1") :=
  no_rule_clears_state ⟨[], [], [], []⟩ initialEngineState "F1" 12 (by rfl)

/-! ## Claim theorems — Type 3 glyph scan -/

/-- C10 counterexample: with a valid `/FontBBox` of height 20 and a single
glyph whose program fails to parse (zero glyphs parsed successfully), the
design height is 20.0 — seeded by `_extract_initial_bbox` — not 0.0. -/
theorem zero_glyphs_height_counterexample :
    type3DesignMetrics
      (some [PdfVal.num 0, PdfVal.num 0, PdfVal.num 10, PdfVal.num 20])
      (some [Except.error ()]) = (20, 0)
    ∧ ((20 : ℚ), (0 : ℚ)) ≠ ((0 : ℚ), (0 : ℚ)) := by
  constructor
  · norm_num [type3DesignMetrics, extractType3Metrics, extractInitialBBox,
      processCharprocSample, toFloat, initialT3Bounds]
  · intro h
    rw [Prod.mk.injEq] at h
    norm_num at h

/-- C10 amended: the glyph scan is total over the embedding (all exception
paths are caught): a glyph whose program fails to parse contributes
nothing, a glyph whose first `d1` instruction has fewer than six operands
contributes nothing, and for a font in which no glyph contributes the
design width stays 0.0 and the design height stays at its
`_extract_initial_bbox` seed — which is 0.0 exactly when no valid
4-element `/FontBBox` is present. -/
theorem type3_scan_robustness :
    (∀ b : T3Bounds, processCharprocSample (Except.error ()) b = b)
    ∧ (∀ (b : T3Bounds) (instrs : List Instr) (i : Instr),
        instrs.find? (fun j => decide (j.operator = "d1")) = some i →
        i.operands.length < 6 →
        processCharprocSample (Except.ok instrs) b = b)
    ∧ (∀ (fontBBox : Option (List PdfVal)) (gs : List GlyphProg),
        (∀ g ∈ gs, ∀ b, processCharprocSample g b = b) →
        type3DesignMetrics fontBBox (some gs) = (extractInitialBBox fontBBox, 0))
    ∧ extractInitialBBox none = 0 := by
  have hfold : ∀ (l : List GlyphProg),
      (∀ g ∈ l, ∀ b, processCharprocSample g b = b) →
      ∀ b, l.foldl (fun acc g => processCharprocSample g acc) b = b := by
    intro l
    induction l with
    | nil => intro _ b; rfl
    | cons g rest ih =>
      intro h b
      rw [List.foldl_cons, h g (by simp) b]
      exact ih (fun x hx b2 => h x (by simp [hx]) b2) b
  refine ⟨fun b => rfl, ?_, ?_, rfl⟩
  · intro b instrs i hf hlen
    simp [processCharprocSample, hf, updateBoundsFromOperands, hlen]
  · intro fontBBox gs hall
    by_cases hgs : gs.isEmpty = true
    · simp [type3DesignMetrics, extractType3Metrics, hgs]
    · simp only [type3DesignMetrics, extractType3Metrics, hgs, Bool.false_eq_true,
        if_false]
      rw [hfold gs hall initialT3Bounds]
      rfl

/-- C10 witness: a font with no `/FontBBox`, one unparsable glyph, and one
glyph whose `d1` instruction has no operands ends the scan with design
height and width both 0.0. -/
theorem type3_scan_robustness_witness :
    type3DesignMetrics none
      (some [Except.error (), Except.ok [⟨[], "d1"⟩]]) =
      (extractInitialBBox none, 0) :=
  type3_scan_robustness.2.2.1 none
    [Except.error (), Except.ok [⟨[], "d1"⟩]]
    (by
      intro g hg b
      rcases List.mem_cons.mp hg with rfl | hg2
      · rfl
      · rcases List.mem_cons.mp hg2 with rfl | hg3
        · simp [processCharprocSample, List.find?_cons, updateBoundsFromOperands]
        · simp at hg3)

/-! ## Claim theorems — text rewriting -/

theorem mapSourceByte_some_mem {hexMap slotMap : PyDict} {ra : Bool} {b : Byte}
    {v : PyVal} (h : mapSourceByte ra hexMap slotMap b = some v) :
    ∃ p ∈ slotMap, p.2 = v := by
  unfold mapSourceByte at h
  by_cases hg : ra = false ∨ slotMap = []
  · rw [if_pos hg] at h
    exact absurd h (by simp)
  · rw [if_neg hg] at h
    exact ⟨_, alGet_mem h, rfl⟩

/-- C1: with an active rule and encoding whose slot values are bytes,
the rewrite is a pure one-byte-to-one-byte transform: every string rewrites
to `Except.ok` of its bytewise image, whose length equals the input length;
a byte whose hex-map/char-to-slot lookup chain fails maps to itself
(emitted unchanged, never dropped or defaulted); and
`rewrite_text_operands` lifts this itemwise to `TJ` arrays (numeric kerning
entries unchanged) and to the string operand of the other text-showing
operators. -/
theorem rewrite_preserves_bytes (hexMap slotMap : PyDict)
    (hbyte : ∀ p ∈ slotMap, isByteSlot p.2 = true) :
    (∀ b, mapSourceByte true hexMap slotMap b = none →
      byteImage true hexMap slotMap b = b)
    ∧ (∀ bs : List Byte, rewriteString true hexMap slotMap bs =
        Except.ok (bs.map (byteImage true hexMap slotMap)))
    ∧ (∀ bs : List Byte,
        (bs.map (byteImage true hexMap slotMap)).length = bs.length)
    ∧ (∀ operands : List Item,
        rewriteTextOperands true hexMap slotMap "TJ" operands =
          Except.ok (operands.map (itemImage true hexMap slotMap)))
    ∧ (∀ (op : String) (s : List Byte) (rest : List Item), op ≠ "TJ" →
        rewriteTextOperands true hexMap slotMap op (Item.istr s :: rest) =
          Except.ok (itemImage true hexMap slotMap (Item.istr s) :: rest))
    ∧ (∀ operands : List Item,
        (operands.map (itemImage true hexMap slotMap)).length =
          operands.length) := by
  have hstep : ∀ b : Byte,
      (match mapSourceByte true hexMap slotMap b with
      | some (PyVal.vint z) =>
        if h : 0 ≤ z ∧ z.toNat < 256 then Except.ok (⟨z.toNat, h.2⟩ : Byte)
        else Except.error ()
      | some (PyVal.vstr _) => Except.error ()
      | none => Except.ok b) =
      Except.ok (byteImage true hexMap slotMap b) := by
    intro b
    cases hm : mapSourceByte true hexMap slotMap b with
    | none => simp [byteImage, hm]
    | some v =>
      rcases mapSourceByte_some_mem hm with ⟨p, hp, hpv⟩
      have hslot := hbyte p hp
      rw [hpv] at hslot
      cases v with
      | vstr s => simp [isByteSlot] at hslot
      | vint z =>
        have hz : 0 ≤ z ∧ z < 256 := by
          simpa [isByteSlot] using hslot
        have hz2 : 0 ≤ z ∧ z.toNat < 256 := by
          refine ⟨hz.1, ?_⟩
          omega
        simp [byteImage, hm, dif_pos hz2]
  have hrw : ∀ bs : List Byte, rewriteString true hexMap slotMap bs =
      Except.ok (bs.map (byteImage true hexMap slotMap)) := by
    intro bs
    induction bs with
    | nil => rfl
    | cons b rest ih =>
      rw [rewriteString, hstep b, ih]
      rfl
  have hmapid : slotMap = [] → ∀ s : List Byte,
      s.map (byteImage true hexMap slotMap) = s := by
    intro hsm s
    subst hsm
    have hb : ∀ b : Byte, byteImage true hexMap [] b = b := by
      intro b
      rfl
    calc s.map (byteImage true hexMap [])
        = s.map id := List.map_congr_left (fun b _ => hb b)
      _ = s := List.map_id s
  refine ⟨?_, hrw, ?_, ?_, ?_, ?_⟩
  · intro b hm
    simp [byteImage, hm]
  · intro bs
    exact List.length_map bs _
  · intro operands
    unfold rewriteTextOperands
    by_cases hg : (true : Bool) = false ∨ slotMap = []
    · rw [if_pos hg]
      have hsm : slotMap = [] := by
        rcases hg with hg | hg
        · exact absurd hg (by simp)
        · exact hg
      have : operands.map (itemImage true hexMap slotMap) = operands := by
        apply List.map_congr_left ?_ |>.trans (List.map_id operands)
        intro a _
        cases a with
        | istr s => simp [itemImage, hmapid hsm s]
        | inum q => rfl
      rw [this]
    · rw [if_neg hg, if_pos rfl]
      induction operands with
      | nil => rfl
      | cons item rest ih =>
        rw [List.foldr_cons, ih]
        cases item with
        | inum q => rfl
        | istr s =>
          rw [List.map_cons]
          simp [hrw s, itemImage]
  · intro op s rest hop
    unfold rewriteTextOperands
    by_cases hg : (true : Bool) = false ∨ slotMap = []
    · rw [if_pos hg]
      have hsm : slotMap = [] := by
        rcases hg with hg | hg
        · exact absurd hg (by simp)
        · exact hg
      simp [itemImage, hmapid hsm s]
    · rw [if_neg hg, if_neg hop]
      simp [hrw s, itemImage]
  · intro operands
    exact List.length_map operands _

/-- C1 witness: the encoding map `{"A": 10}` rewrites text `"A" "B"`
(bytes 65, 66) to bytes 10, 66 — `"A"` to its slot, the unmapped `"B"`
unchanged. -/
theorem rewrite_preserves_bytes_witness :
    rewriteString true [] [(PyVal.vstr "A", PyVal.vint 10)] [65, 66] =
      Except.ok
        (([65, 66] : List Byte).map
          (byteImage true [] [(PyVal.vstr "A", PyVal.vint 10)]))
    ∧ ([65, 66] : List Byte).map
        (byteImage true [] [(PyVal.vstr "A", PyVal.vint 10)]) = [10, 66] :=
  ⟨(rewrite_preserves_bytes [] [(PyVal.vstr "A", PyVal.vint 10)]
      (by decide)).2.1 [65, 66],
   by decide⟩

/-! ## Claim theorems — encoding map inversion -/

theorem alInsert_not_mem_eq_append {κ ν : Type} [DecidableEq κ]
    {m : List (κ × ν)} {k : κ} (v : ν) (h : k ∉ alKeys m) :
    alInsert m k v = m ++ [(k, v)] := by
  unfold alInsert
  rw [if_neg ?_]
  intro hc
  rcases List.any_eq_true.mp hc with ⟨p, hp, hdec⟩
  exact h ((of_decide_eq_true hdec) ▸ List.mem_map_of_mem _ hp)

theorem alNodupKeys_foldl_step {κ ν α : Type} [DecidableEq κ]
    {step : List (κ × ν) → α → List (κ × ν)}
    (hstep : ∀ acc a, alNodupKeys acc → alNodupKeys (step acc a))
    (l : List α) :
    ∀ acc, alNodupKeys acc → alNodupKeys (l.foldl step acc) := by
  induction l with
  | nil => intro acc h; exact h
  | cons a rest ih =>
    intro acc h
    rw [List.foldl_cons]
    exact ih (step acc a) (hstep acc a h)

theorem alNodupKeys_normalizeRawEntry (acc : PyDict) (p : PyVal × PyVal)
    (h : alNodupKeys acc) : alNodupKeys (normalizeRawEntry acc p) := by
  rcases p with ⟨k, v⟩
  cases k <;> cases v <;> exact alNodupKeys_alInsert _ h

theorem alNodupKeys_buildSlotMap (raw_map : PyDict)
    (rule_map : List (String × PyVal)) :
    alNodupKeys (buildSlotMap raw_map rule_map) := by
  unfold buildSlotMap
  apply alNodupKeys_foldl_step
    (fun acc p h => alNodupKeys_alInsert _ h)
  apply alNodupKeys_foldl_step alNodupKeys_normalizeRawEntry
  simp [alNodupKeys, alKeys]

theorem foldl_invert_append (m : PyDict) :
    ∀ acc : PyDict, (m.map (fun p => p.2)).Nodup →
      (∀ q ∈ m, q.2 ∉ alKeys acc) →
      m.foldl (fun acc p => alInsert acc p.2 p.1) acc = acc ++ m.map Prod.swap := by
  induction m with
  | nil =>
    intro acc _ _
    simp
  | cons p rest ih =>
    intro acc hnd hdisj
    rw [List.foldl_cons,
      alInsert_not_mem_eq_append p.1 (hdisj p (List.mem_cons_self p rest))]
    have hnd2 : (rest.map (fun p => p.2)).Nodup := (List.nodup_cons.mp hnd).2
    have hdisj2 : ∀ q ∈ rest, q.2 ∉ alKeys (acc ++ [(p.2, p.1)]) := by
      intro q hq hmem
      have hkeys : alKeys (acc ++ [(p.2, p.1)]) = alKeys acc ++ [p.2] := by
        simp [alKeys]
      rw [hkeys, List.mem_append] at hmem
      rcases hmem with hmem | hmem
      · exact hdisj q (List.mem_cons_of_mem _ hq) hmem
      · rcases List.mem_singleton.mp hmem with he
        exact (List.nodup_cons.mp hnd).1
          (by simpa [he] using List.mem_map_of_mem (fun r => r.2) hq)
    rw [ih (acc ++ [(p.2, p.1)]) hnd2 hdisj2]
    simp [Prod.swap]

theorem pyInvert_eq_map_swap (m : PyDict)
    (hv : (m.map (fun p => p.2)).Nodup) :
    pyInvert m = m.map Prod.swap := by
  unfold pyInvert
  rw [foldl_invert_append m [] hv (by intro q _ hc; simp [alKeys] at hc)]
  simp

theorem alGet_swap_of_alGet {m : PyDict}
    (hv : (m.map (fun p => p.2)).Nodup) {c s : PyVal}
    (h : alGet m c = some s) :
    alGet (m.map Prod.swap) s = some c := by
  induction m with
  | nil => simp [alGet] at h
  | cons p rest ih =>
    rw [alGet_cons] at h
    rw [List.map_cons, alGet_cons]
    by_cases hp : p.1 = c
    · rw [if_pos hp] at h
      have hv2 : p.2 = s := Option.some.inj h
      rw [if_pos (by simpa [Prod.swap] using hv2)]
      simp [Prod.swap, hp]
    · rw [if_neg hp] at h
      have hsmem : s ∈ rest.map (fun q => q.2) := by
        have := alGet_mem h
        exact List.mem_map.mpr ⟨(c, s), this, rfl⟩
      have hp2 : ¬ ((p.2, p.1).1 = s) := by
        intro he
        exact (List.nodup_cons.mp (by simpa using hv)).1 (he ▸ hsmem)
      rw [if_neg (by simpa [Prod.swap] using hp2)]
      exact ih (List.nodup_cons.mp (by simpa using hv)).2 h

theorem alGet_of_alGet_swap {m : PyDict}
    (hk : alNodupKeys m) {s c : PyVal}
    (h : alGet (m.map Prod.swap) s = some c) :
    alGet m c = some s := by
  induction m with
  | nil => simp [alGet] at h
  | cons p rest ih =>
    rw [List.map_cons, alGet_cons] at h
    have hk2 : alNodupKeys rest := (List.nodup_cons.mp (by simpa [alNodupKeys, alKeys] using hk)).2
    have hk1 : p.1 ∉ alKeys rest := (List.nodup_cons.mp (by simpa [alNodupKeys, alKeys] using hk)).1
    by_cases hp : (p.swap).1 = s
    · rw [if_pos hp] at h
      have hc : p.swap.2 = c := Option.some.inj h
      rw [alGet_cons, if_pos (by simpa [Prod.swap] using hc)]
      simpa [Prod.swap] using hp
    · rw [if_neg hp] at h
      have hrec := ih hk2 h
      by_cases hc : p.1 = c
      · exact absurd (hc ▸ alGet_some_key_mem hrec) hk1
      · rw [alGet_cons, if_neg hc]
        exact hrec

/-- C9: for every injective slot assignment (pairwise-distinct slot
values), the char → slot map and the slot → char map built by
`_initialize_encoding_maps` at font selection are exact inverses: each
lookup in one is undone by a lookup in the other, for every key present. -/
theorem encoding_maps_inverse (raw_map : PyDict)
    (rule_map : List (String × PyVal))
    (hinj : ((buildSlotMap raw_map rule_map).map (fun p => p.2)).Nodup) :
    ∀ cm, buildCharMap (buildSlotMap raw_map rule_map) = some cm →
      (∀ c s, alGet (buildSlotMap raw_map rule_map) c = some s →
        alGet cm s = some c)
      ∧ (∀ s c, alGet cm s = some c →
        alGet (buildSlotMap raw_map rule_map) c = some s) := by
  intro cm hcm
  have hcm2 : cm = pyInvert (buildSlotMap raw_map rule_map) := by
    unfold buildCharMap at hcm
    by_cases he : buildSlotMap raw_map rule_map = []
    · rw [if_pos he] at hcm
      cases hcm
    · rw [if_neg he] at hcm
      exact (Option.some.inj hcm).symm
  rw [hcm2, pyInvert_eq_map_swap _ hinj]
  exact ⟨fun c s h => alGet_swap_of_alGet hinj h,
    fun s c h => alGet_of_alGet_swap (alNodupKeys_buildSlotMap raw_map rule_map) h⟩

/-- C9 witness: the file-level map `{10: "A"}` merged with the rule entry
`"B" → 11` builds inverse tables; looking slot 10 up in the inverse map
returns `"A"`. -/
theorem encoding_maps_inverse_witness :
    alGet [(PyVal.vint 10, PyVal.vstr "A"), (PyVal.vint 11, PyVal.vstr "B")]
      (PyVal.vint 10) = some (PyVal.vstr "A") :=
  ((encoding_maps_inverse [(PyVal.vint 10, PyVal.vstr "A")]
      [("B", PyVal.vint 11)] (by decide)
      [(PyVal.vint 10, PyVal.vstr "A"), (PyVal.vint 11, PyVal.vstr "B")]
      (by decide)).1) (PyVal.vstr "A") (PyVal.vint 10) (by decide)

/-! ## Claim theorems — slot assignment -/

theorem alGet_foldl_insert_not_mem {κ ν : Type} [DecidableEq κ]
    (ps : List (κ × ν)) :
    ∀ (m : List (κ × ν)) (k : κ), k ∉ ps.map (fun p => p.1) →
      alGet (ps.foldl (fun acc p => alInsert acc p.1 p.2) m) k = alGet m k := by
  induction ps with
  | nil => intro m k _; rfl
  | cons p rest ih =>
    intro m k hk
    rw [List.foldl_cons]
    have hk1 : k ≠ p.1 := by
      intro he
      exact hk (by simp [he])
    have hk2 : k ∉ rest.map (fun p => p.1) := by
      intro hc
      exact hk (by simp [hc])
    rw [ih (alInsert m p.1 p.2) k hk2, alGet_alInsert_ne m p.1 p.2 k hk1]

theorem alGet_foldl_insert_mem {κ ν : Type} [DecidableEq κ]
    (ps : List (κ × ν)) :
    ∀ (m : List (κ × ν)), (ps.map (fun p => p.1)).Nodup →
      ∀ k v, (k, v) ∈ ps →
      alGet (ps.foldl (fun acc p => alInsert acc p.1 p.2) m) k = some v := by
  induction ps with
  | nil => intro m _ k v hkv; simp at hkv
  | cons p rest ih =>
    intro m hnd k v hkv
    rw [List.foldl_cons]
    rcases List.mem_cons.mp hkv with he | hmem
    · have hk : k ∉ rest.map (fun p => p.1) := by
        rw [← he] at hnd
        exact (List.nodup_cons.mp (by simpa using hnd)).1
      rw [alGet_foldl_insert_not_mem rest (alInsert m p.1 p.2) k hk, ← he,
        alGet_alInsert_self]
    · exact ih (alInsert m p.1 p.2) (List.nodup_cons.mp (by simpa using hnd)).2
        k v hmem

theorem alKeys_foldl_insert_present {κ ν : Type} [DecidableEq κ]
    (ps : List (κ × ν)) :
    ∀ (m : List (κ × ν)), (∀ p ∈ ps, p.1 ∈ alKeys m) →
      alKeys (ps.foldl (fun acc p => alInsert acc p.1 p.2) m) = alKeys m := by
  induction ps with
  | nil => intro m _; rfl
  | cons p rest ih =>
    intro m hmem
    rw [List.foldl_cons,
      ih (alInsert m p.1 p.2) ?_,
      alKeys_alInsert_mem p.2 (hmem p (List.mem_cons_self p rest))]
    intro q hq
    rw [alKeys_alInsert_mem p.2 (hmem p (List.mem_cons_self p rest))]
    exact hmem q (List.mem_cons_of_mem _ hq)

theorem alKeys_registerStep (acc : List (Char × ℤ)) (ch : Char) (c : Char) :
    c ∈ alKeys (registerStep acc ch) ↔
      c ∈ alKeys acc ∨ (c = ch ∧ ¬ (32 ≤ ch.toNat ∧ ch.toNat ≤ 126)) := by
  unfold registerStep
  by_cases ha : 32 ≤ ch.toNat ∧ ch.toNat ≤ 126
  · rw [if_pos ha]
    simp [ha]
  · rw [if_neg ha]
    by_cases hp : (alGet acc ch).isSome = true
    · rw [if_pos hp]
      rcases Option.isSome_iff_exists.mp hp with ⟨v, hv⟩
      have hm : ch ∈ alKeys acc := alGet_some_key_mem hv
      constructor
      · intro h
        exact Or.inl h
      · rintro (h | ⟨rfl, _⟩)
        · exact h
        · exact hm
    · rw [if_neg hp, alKeys_alInsert_not_mem (-1) ?_]
      · simp [ha]
      · intro hc
        apply hp
        have hne : alGet acc ch ≠ none :=
          fun hnone => (alGet_eq_none_iff.mp hnone) hc
        rcases Option.ne_none_iff_exists.mp hne with ⟨v, hv⟩
        rw [← hv]
        rfl

theorem alNodupKeys_registerStep (acc : List (Char × ℤ)) (ch : Char)
    (h : alNodupKeys acc) : alNodupKeys (registerStep acc ch) := by
  unfold registerStep
  by_cases ha : 32 ≤ ch.toNat ∧ ch.toNat ≤ 126
  · rw [if_pos ha]
    exact h
  · rw [if_neg ha]
    by_cases hp : (alGet acc ch).isSome = true
    · rw [if_pos hp]
      exact h
    · rw [if_neg hp]
      exact alNodupKeys_alInsert _ h

theorem alNodupKeys_register (vals : List String) :
    ∀ m : List (Char × ℤ), alNodupKeys m →
      alNodupKeys (registerRequiredChars vals m) := by
  intro m h
  unfold registerRequiredChars
  refine alNodupKeys_foldl_step ?_ vals m h
  intro acc v hacc
  exact alNodupKeys_foldl_step (fun a c hc => alNodupKeys_registerStep a c hc)
    v.data acc hacc

theorem register_chars_mem_iff (cs : List Char) :
    ∀ (m : List (Char × ℤ)) (c : Char),
      c ∈ alKeys (cs.foldl registerStep m) ↔
        c ∈ alKeys m ∨ (c ∈ cs ∧ ¬ (32 ≤ c.toNat ∧ c.toNat ≤ 126)) := by
  induction cs with
  | nil => intro m c; simp
  | cons ch rest ih =>
    intro m c
    rw [List.foldl_cons, ih (registerStep m ch) c, alKeys_registerStep]
    constructor
    · rintro ((h | ⟨rfl, hn⟩) | ⟨hr, hn⟩)
      · exact Or.inl h
      · exact Or.inr ⟨List.mem_cons_self _ _, hn⟩
      · exact Or.inr ⟨List.mem_cons_of_mem _ hr, hn⟩
    · rintro (h | ⟨hm, hn⟩)
      · exact Or.inl (Or.inl h)
      · rcases List.mem_cons.mp hm with rfl | hr
        · exact Or.inl (Or.inr ⟨rfl, hn⟩)
        · exact Or.inr ⟨hr, hn⟩

theorem register_mem_iff (vals : List String) :
    ∀ (m : List (Char × ℤ)) (c : Char),
      c ∈ alKeys (registerRequiredChars vals m) ↔
        c ∈ alKeys m ∨
          ((∃ v ∈ vals, c ∈ v.data) ∧ ¬ (32 ≤ c.toNat ∧ c.toNat ≤ 126)) := by
  induction vals with
  | nil =>
    intro m c
    simp [registerRequiredChars]
  | cons v rest ih =>
    intro m c
    unfold registerRequiredChars at *
    rw [List.foldl_cons, ih (v.data.foldl registerStep m) c,
      register_chars_mem_iff v.data m c]
    constructor
    · rintro ((h | ⟨hm, hn⟩) | ⟨⟨w, hw, hcw⟩, hn⟩)
      · exact Or.inl h
      · exact Or.inr ⟨⟨v, List.mem_cons_self _ _, hm⟩, hn⟩
      · exact Or.inr ⟨⟨w, List.mem_cons_of_mem _ hw, hcw⟩, hn⟩
    · rintro (h | ⟨⟨w, hw, hcw⟩, hn⟩)
      · exact Or.inl (Or.inl h)
      · rcases List.mem_cons.mp hw with rfl | hr
        · exact Or.inl (Or.inr ⟨hcw, hn⟩)
        · exact Or.inr ⟨⟨w, hr, hcw⟩, hn⟩

theorem assignSlots_eq_pair_fold (m : List (Char × ℤ)) :
    assignSlots m =
      ((sortedChars (alKeys m)).enum.map
        (fun p => (p.2, 128 + (p.1 : ℤ)))).foldl
        (fun acc q => alInsert acc q.1 q.2) m := by
  unfold assignSlots alKeys
  rw [List.foldl_map]

theorem assignSlots_get (m : List (Char × ℤ)) (hnd : alNodupKeys m) (i : ℕ)
    (hi : i < (sortedChars (alKeys m)).length) :
    alGet (assignSlots m) ((sortedChars (alKeys m)).get ⟨i, hi⟩) =
      some (128 + (i : ℤ)) := by
  rw [assignSlots_eq_pair_fold]
  apply alGet_foldl_insert_mem
  · have hkeys : (((sortedChars (alKeys m)).enum.map
        (fun p => (p.2, 128 + (p.1 : ℤ)))).map (fun q => q.1)) =
        sortedChars (alKeys m) := by
      rw [List.map_map]
      exact List.enum_map_snd _
    rw [hkeys]
    exact (List.perm_insertionSort _ _).nodup_iff.mpr hnd
  · have hi2 : i < ((sortedChars (alKeys m)).enum.map
        (fun p => (p.2, 128 + (p.1 : ℤ)))).length := by
      simpa using hi
    have hval : (((sortedChars (alKeys m)).enum.map
        (fun p => (p.2, 128 + (p.1 : ℤ))))[i]) =
        ((sortedChars (alKeys m)).get ⟨i, hi⟩, 128 + (i : ℤ)) := by
      rw [List.getElem_map, List.getElem_enum]
      simp [List.get_eq_getElem]
    rw [← hval]
    exact List.getElem_mem hi2

theorem assignSlots_lookup_rank (m : List (Char × ℤ)) (hnd : alNodupKeys m)
    (c : Char) (z : ℤ) (h : alGet (assignSlots m) c = some z) :
    ∃ i, ∃ hi : i < (sortedChars (alKeys m)).length,
      (sortedChars (alKeys m)).get ⟨i, hi⟩ = c ∧ z = 128 + (i : ℤ) := by
  have hkeys : alKeys (assignSlots m) = alKeys m := by
    rw [assignSlots_eq_pair_fold]
    apply alKeys_foldl_insert_present
    intro p hp
    rcases List.mem_map.mp hp with ⟨q, hq, rfl⟩
    have hqs : q.2 ∈ sortedChars (alKeys m) := by
      have he := List.enum_map_snd (sortedChars (alKeys m))
      exact he ▸ List.mem_map_of_mem Prod.snd hq
    exact ((List.perm_insertionSort _ _).mem_iff).mp hqs
  have hc : c ∈ alKeys m := hkeys ▸ alGet_some_key_mem h
  have hcks : c ∈ sortedChars (alKeys m) :=
    ((List.perm_insertionSort _ _).mem_iff).mpr hc
  rcases List.mem_iff_get.mp hcks with ⟨⟨i, hi⟩, hget⟩
  refine ⟨i, hi, hget, ?_⟩
  have hv := assignSlots_get m hnd i hi
  rw [hget, h] at hv
  exact Option.some.inj hv

/-- C7 amended: the characters collected by
`_register_required_characters` are exactly the non-ASCII characters of
the rules' encoding-map values; `_embed_required_fonts` assigns them the
slots `128 + rank` in ascending character order, deterministically; every
assigned slot is ≥ 128, and all assigned slots lie within the byte range
0–255 exactly when at most 128 characters were collected (the slot counter
grows upward without bound and never extends downward). -/
theorem required_char_slots (vals : List String) :
    List.Sorted (· ≤ ·) (sortedChars (alKeys (registerRequiredChars vals [])))
    ∧ (∀ (i : ℕ)
        (hi : i < (sortedChars (alKeys (registerRequiredChars vals []))).length),
        alGet (assignSlots (registerRequiredChars vals []))
          ((sortedChars (alKeys (registerRequiredChars vals []))).get ⟨i, hi⟩) =
          some (128 + (i : ℤ)))
    ∧ (∀ (c : Char) (z : ℤ),
        alGet (assignSlots (registerRequiredChars vals [])) c = some z →
        128 ≤ z)
    ∧ ((alKeys (registerRequiredChars vals [])).length ≤ 128 →
        ∀ (c : Char) (z : ℤ),
        alGet (assignSlots (registerRequiredChars vals [])) c = some z →
        z ≤ 255)
    ∧ (∀ c : Char, c ∈ alKeys (registerRequiredChars vals []) ↔
        ((∃ v ∈ vals, c ∈ v.data) ∧ ¬ (32 ≤ c.toNat ∧ c.toNat ≤ 126))) := by
  have hnd : alNodupKeys (registerRequiredChars vals []) :=
    alNodupKeys_register vals [] (by simp [alNodupKeys, alKeys])
  refine ⟨List.sorted_insertionSort _ _, assignSlots_get _ hnd, ?_, ?_, ?_⟩
  · intro c z h
    rcases assignSlots_lookup_rank _ hnd c z h with ⟨i, hi, _, rfl⟩
    omega
  · intro hlen c z h
    rcases assignSlots_lookup_rank _ hnd c z h with ⟨i, hi, _, rfl⟩
    have hlen2 : (sortedChars (alKeys (registerRequiredChars vals []))).length =
        (alKeys (registerRequiredChars vals [])).length :=
      (List.perm_insertionSort _ _).length_eq
    omega
  · intro c
    rw [register_mem_iff vals [] c]
    simp [alKeys]

set_option maxRecDepth 10000 in
set_option maxHeartbeats 1000000 in
/-- C7 counterexample: a rule whose encoding map carries 129 distinct
non-ASCII characters (code points 161–289) drives the slot counter past
255 — the last character in ascending order is assigned slot 256, outside
the byte range. -/
theorem slot_out_of_byte_range_counterexample :
    alGet (assignSlots (registerRequiredChars [bigVal] [])) (Char.ofNat 289) =
      some (256 : ℤ)
    ∧ ¬ ((256 : ℤ) ≤ 255) := by
  have h1 : alGet (assignSlots (registerRequiredChars [bigVal] []))
      (Char.ofNat 289) = some (256 : ℤ) := by decide
  exact ⟨h1, by decide⟩

/-- C7 witness: with the two non-ASCII characters `Ω` and `μ` collected,
the first character in ascending order receives slot 128. -/
theorem required_char_slots_witness :
    alGet (assignSlots (registerRequiredChars ["Ωμ"] []))
      ((sortedChars (alKeys (registerRequiredChars ["Ωμ"] []))).get
        ⟨0, by decide⟩) = some (128 + (0 : ℤ)) :=
  (required_char_slots ["Ωμ"]).2.1 0 (by decide)


theorem digitsRevAux_zero (b fuel : ℕ) : digitsRevAux b fuel 0 = [] := by
  cases fuel <;> rfl

theorem digitsRevAux_succ (b fuel m : ℕ) :
    digitsRevAux b (fuel + 1) (m + 1) =
      (m + 1) % b :: digitsRevAux b fuel ((m + 1) / b) := rfl

theorem digitsRevAux_lt (b : ℕ) (hb : 0 < b) :
    ∀ fuel n, ∀ d ∈ digitsRevAux b fuel n, d < b := by
  intro fuel
  induction fuel with
  | zero =>
    intro n d hd
    simp [digitsRevAux] at hd
  | succ fuel ih =>
    intro n d hd
    cases n with
    | zero => simp [digitsRevAux_zero] at hd
    | succ m =>
      rw [digitsRevAux_succ] at hd
      rcases List.mem_cons.mp hd with rfl | hd2
      · exact Nat.mod_lt _ hb
      · exact ih _ d hd2

theorem ofDigits_digitsRevAux (b : ℕ) (hb : 2 ≤ b) :
    ∀ fuel n, n ≤ fuel → Nat.ofDigits b (digitsRevAux b fuel n) = n := by
  intro fuel
  induction fuel with
  | zero =>
    intro n hn
    interval_cases n
    simp [digitsRevAux]
  | succ fuel ih =>
    intro n hn
    cases n with
    | zero => simp [digitsRevAux_zero]
    | succ m =>
      rw [digitsRevAux_succ, Nat.ofDigits_cons, ih ((m + 1) / b) ?_]
      · exact Nat.mod_add_div (m + 1) b
      · have : (m + 1) / b < m + 1 := Nat.div_lt_self (Nat.succ_pos m) hb
        omega

theorem digitsRev_ne_nil (b n : ℕ) (hn : n ≠ 0) : digitsRev b n ≠ [] := by
  cases n with
  | zero => exact absurd rfl hn
  | succ m =>
    unfold digitsRev
    rw [digitsRevAux_succ]
    simp

theorem foldr_mul_add_eq_ofDigits (b : ℕ) (l : List ℕ) :
    l.foldr (fun d a => b * a + d) 0 = Nat.ofDigits b l := by
  induction l with
  | nil => simp [Nat.ofDigits]
  | cons d rest ih =>
    rw [List.foldr_cons, ih, Nat.ofDigits_cons]
    omega

theorem foldl_parse_map (dchar : ℕ → Char)
    (hchar : ∀ d, d < 16 → hexDigitVal (dchar d) = some d)
    (ds : List ℕ) (hds : ∀ d ∈ ds, d < 16) :
    ∀ a : ℕ, (ds.map dchar).foldl
      (fun acc c => match acc, hexDigitVal c with
        | some x, some d => some (16 * x + d)
        | _, _ => none) (some a) =
      some (ds.foldl (fun x d => 16 * x + d) a) := by
  induction ds with
  | nil => intro a; rfl
  | cons d rest ih =>
    intro a
    rw [List.map_cons, List.foldl_cons, List.foldl_cons]
    have hd : hexDigitVal (dchar d) = some d :=
      hchar d (hds d (List.mem_cons_self d rest))
    rw [hd]
    exact ih (fun x hx => hds x (List.mem_cons_of_mem _ hx)) (16 * a + d)

theorem hexDigitCharLower_val : ∀ d, d < 16 →
    hexDigitVal (hexDigitCharLower d) = some d := by decide

theorem hexDigitCharUpper_val : ∀ d, d < 16 →
    hexDigitVal (hexDigitCharUpper d) = some d := by decide

theorem parseHexDigits_hexChars (dchar : ℕ → Char)
    (hchar : ∀ d, d < 16 → hexDigitVal (dchar d) = some d)
    (n : ℕ) (hn : n ≠ 0) :
    parseHexDigits ((digitsRev 16 n).reverse.map dchar) = some n := by
  have hne : (digitsRev 16 n).reverse.map dchar ≠ [] := by
    simp [digitsRev_ne_nil 16 n hn]
  unfold parseHexDigits
  rw [if_neg hne]
  have hds : ∀ d ∈ (digitsRev 16 n).reverse, d < 16 := by
    intro d hd
    exact digitsRevAux_lt 16 (by norm_num) n n d (List.mem_reverse.mp hd)
  rw [foldl_parse_map dchar hchar _ hds 0]
  rw [List.foldl_reverse]
  have : (digitsRev 16 n).foldr (fun d a => 16 * a + d) 0 = n := by
    rw [foldr_mul_add_eq_ofDigits 16 _]
    exact ofDigits_digitsRevAux 16 (by norm_num) n n (le_refl n)
  simp only [this]

theorem parseHexDigits_natHexCharsLower (n : ℕ) :
    parseHexDigits (natHexCharsLower n) = some n := by
  unfold natHexCharsLower
  by_cases h0 : n = 0
  · subst h0
    decide
  · rw [if_neg h0]
    exact parseHexDigits_hexChars hexDigitCharLower hexDigitCharLower_val n h0

theorem parseHexDigits_natHexCharsUpper (n : ℕ) :
    parseHexDigits (natHexCharsUpper n) = some n := by
  unfold natHexCharsUpper
  by_cases h0 : n = 0
  · subst h0
    decide
  · rw [if_neg h0]
    exact parseHexDigits_hexChars hexDigitCharUpper hexDigitCharUpper_val n h0

theorem natHexCharsLower_ne_nil (n : ℕ) : natHexCharsLower n ≠ [] := by
  unfold natHexCharsLower
  by_cases h0 : n = 0
  · simp [h0]
  · rw [if_neg h0]
    simp [digitsRev_ne_nil 16 n h0]

theorem natHexCharsUpper_ne_nil (n : ℕ) : natHexCharsUpper n ≠ [] := by
  unfold natHexCharsUpper
  by_cases h0 : n = 0
  · simp [h0]
  · rw [if_neg h0]
    simp [digitsRev_ne_nil 16 n h0]

theorem parseHexDigits_pad2 (l : List Char) (hl : l ≠ []) :
    parseHexDigits (pad2 l) = parseHexDigits l := by
  unfold pad2
  by_cases h : l.length < 2
  · rw [if_pos h]
    unfold parseHexDigits
    rw [if_neg (by simp), if_neg hl]
    rw [List.foldl_cons]
    have h0 : hexDigitVal '0' = some 0 := by decide
    rw [h0]
  · rw [if_neg h]

theorem hexDigitCharLower_no_marker : ∀ d, d < 16 →
    hexDigitCharLower d ≠ '-' ∧ hexDigitCharLower d ≠ '+' ∧
      hexDigitCharLower d ≠ 'x' ∧ hexDigitCharLower d ≠ 'X' := by decide

theorem hexDigitCharUpper_no_marker : ∀ d, d < 16 →
    hexDigitCharUpper d ≠ '-' ∧ hexDigitCharUpper d ≠ '+' ∧
      hexDigitCharUpper d ≠ 'x' ∧ hexDigitCharUpper d ≠ 'X' := by decide

theorem natHexCharsLower_no_marker (n : ℕ) :
    ∀ c ∈ natHexCharsLower n, c ≠ '-' ∧ c ≠ '+' ∧ c ≠ 'x' ∧ c ≠ 'X' := by
  intro c hc
  unfold natHexCharsLower at hc
  by_cases h0 : n = 0
  · rw [h0] at hc
    simp at hc
    subst hc
    decide
  · rw [if_neg h0] at hc
    rcases List.mem_map.mp hc with ⟨d, hd, rfl⟩
    exact hexDigitCharLower_no_marker d
      (digitsRevAux_lt 16 (by norm_num) n n d (List.mem_reverse.mp hd))

theorem natHexCharsUpper_no_marker (n : ℕ) :
    ∀ c ∈ natHexCharsUpper n, c ≠ '-' ∧ c ≠ '+' ∧ c ≠ 'x' ∧ c ≠ 'X' := by
  intro c hc
  unfold natHexCharsUpper at hc
  by_cases h0 : n = 0
  · rw [h0] at hc
    simp at hc
    subst hc
    decide
  · rw [if_neg h0] at hc
    rcases List.mem_map.mp hc with ⟨d, hd, rfl⟩
    exact hexDigitCharUpper_no_marker d
      (digitsRevAux_lt 16 (by norm_num) n n d (List.mem_reverse.mp hd))

theorem stripHexPrefix_cons2 (c0 c1 : Char) (rest : List Char) :
    stripHexPrefix (c0 :: c1 :: rest) =
      if c0 = '0' ∧ (c1 = 'x' ∨ c1 = 'X') then rest else c0 :: c1 :: rest := rfl

theorem stripHexPrefix_no_marker (l : List Char)
    (h : ∀ c ∈ l, c ≠ 'x' ∧ c ≠ 'X') : stripHexPrefix l = l := by
  cases l with
  | nil => rfl
  | cons c0 rest =>
    cases rest with
    | nil => rfl
    | cons c1 rest2 =>
      rw [stripHexPrefix_cons2, if_neg ?_]
      rintro ⟨-, hx⟩
      have hh := h c1 (List.mem_cons_of_mem _ (List.mem_cons_self _ _))
      rcases hx with hx | hx
      · exact hh.1 hx
      · exact hh.2 hx

theorem parseHexPy_cons (c : Char) (rest : List Char) :
    parseHexPy ⟨c :: rest⟩ =
      (if c = '-' then
        (parseHexDigits (stripHexPrefix rest)).map (fun n => -(n : ℤ))
      else if c = '+' then
        (parseHexDigits (stripHexPrefix rest)).map (fun n => (n : ℤ))
      else
        (parseHexDigits (stripHexPrefix (c :: rest))).map (fun n => (n : ℤ))) :=
  rfl

theorem parseHexPy_prefixed {nn : ℕ} (mark : Char) (hm : mark = 'x' ∨ mark = 'X')
    (l : List Char) (hparse : parseHexDigits l = some nn) :
    parseHexPy ⟨'0' :: mark :: l⟩ = some (nn : ℤ) := by
  rw [parseHexPy_cons, if_neg (by decide), if_neg (by decide)]
  rw [stripHexPrefix_cons2, if_pos ⟨rfl, hm⟩, hparse]
  rfl

theorem parseHexPy_bare {nn : ℕ} (l : List Char) (hne : l ≠ [])
    (hmk : ∀ c ∈ l, c ≠ '-' ∧ c ≠ '+' ∧ c ≠ 'x' ∧ c ≠ 'X')
    (hparse : parseHexDigits l = some nn) :
    parseHexPy ⟨l⟩ = some (nn : ℤ) := by
  cases l with
  | nil => exact absurd rfl hne
  | cons c rest =>
    have hc := hmk c (List.mem_cons_self c rest)
    rw [parseHexPy_cons, if_neg hc.1, if_neg hc.2.1]
    rw [stripHexPrefix_no_marker _ (fun d hd => (hmk d hd).2.2), hparse]
    rfl

theorem parseHexPy_spellBareHexLower (n : ℕ) :
    parseHexPy (spellBareHexLower n) = some (n : ℤ) :=
  parseHexPy_bare _ (natHexCharsLower_ne_nil n) (natHexCharsLower_no_marker n)
    (parseHexDigits_natHexCharsLower n)

theorem parseHexPy_spellHexLower (n : ℕ) :
    parseHexPy (spellHexLower n) = some (n : ℤ) :=
  parseHexPy_prefixed 'x' (Or.inl rfl) _ (parseHexDigits_natHexCharsLower n)

theorem parseHexPy_spellHexLowerPad (n : ℕ) :
    parseHexPy (spellHexLowerPad n) = some (n : ℤ) :=
  parseHexPy_prefixed 'x' (Or.inl rfl) _
    ((parseHexDigits_pad2 _ (natHexCharsLower_ne_nil n)).trans
      (parseHexDigits_natHexCharsLower n))

theorem parseHexPy_spellHexUpper (n : ℕ) :
    parseHexPy (spellHexUpper n) = some (n : ℤ) :=
  parseHexPy_prefixed 'X' (Or.inr rfl) _ (parseHexDigits_natHexCharsUpper n)

theorem parseHexPy_spellHexUpperPad (n : ℕ) :
    parseHexPy (spellHexUpperPad n) = some (n : ℤ) :=
  parseHexPy_prefixed 'X' (Or.inr rfl) _
    ((parseHexDigits_pad2 _ (natHexCharsUpper_ne_nil n)).trans
      (parseHexDigits_natHexCharsUpper n))

theorem alGet_singleton {κ ν : Type} [DecidableEq κ] (k : κ) (v : ν) (q : κ) :
    alGet [(k, v)] q = if k = q then some v else none := by
  rw [alGet_cons]
  rfl

theorem alGet_vstr_singleton_eq (s : String) (v : PyVal) :
    alGet [(PyVal.vstr s, v)] (PyVal.vstr s) = some v := by
  rw [alGet_singleton, if_pos rfl]

theorem alGet_vstr_singleton_ne (s t : String) (v : PyVal) (h : s ≠ t) :
    alGet [(PyVal.vstr s, v)] (PyVal.vstr t) = none := by
  rw [alGet_singleton, if_neg]
  intro he
  injection he with he2
  exact h he2

theorem smartMapGetInt_vstr_singleton (s : String) (v : PyVal) (key : ℕ) :
    smartMapGetInt [(PyVal.vstr s, v)] key =
      [spellHexLowerPad key, spellHexLower key, spellHexUpperPad key,
       spellHexUpper key, spellDec key].findSome?
        (fun cand => alGet [(PyVal.vstr s, v)] (PyVal.vstr cand)) := by
  unfold smartMapGetInt
  have h1 : alGet [(PyVal.vstr s, v)] (PyVal.vint (key : ℤ)) = none := by
    rw [alGet_singleton, if_neg]
    intro he
    exact PyVal.noConfusion he
  rw [h1]

theorem string_mk_ne {l₁ l₂ : List Char} (h : l₁ ≠ l₂) :
    (⟨l₁⟩ : String) ≠ ⟨l₂⟩ := by
  intro he
  injection he with he2
  exact h he2

theorem cons2_ne_of_ne {c1 c2 : Char} (h : c1 ≠ c2) (t u : List Char) :
    ('0' :: c1 :: t) ≠ ('0' :: c2 :: u) := by
  intro he
  injection he with _ he2
  injection he2 with he3 _
  exact h he3

theorem pad_cons_ne (c : Char) (l : List Char) :
    ('0' :: c :: '0' :: l) ≠ ('0' :: c :: l) := by
  intro h
  have := congrArg List.length h
  simp at this

theorem decDigitChar_digit : ∀ d, d < 10 →
    48 ≤ (decDigitChar d).toNat ∧ (decDigitChar d).toNat ≤ 57 := by decide

theorem natDecChars_digit (n : ℕ) :
    ∀ c ∈ natDecChars n, 48 ≤ c.toNat ∧ c.toNat ≤ 57 := by
  intro c hc
  unfold natDecChars at hc
  by_cases h0 : n = 0
  · rw [h0] at hc
    simp at hc
    subst hc
    decide
  · rw [if_neg h0] at hc
    rcases List.mem_map.mp hc with ⟨d, hd, rfl⟩
    exact decDigitChar_digit d
      (digitsRevAux_lt 10 (by norm_num) n n d (List.mem_reverse.mp hd))

theorem hex_prefixed_ne_dec {c2 : Char} (h58 : 58 ≤ c2.toNat)
    (t : List Char) (n : ℕ) : ('0' :: c2 :: t) ≠ natDecChars n := by
  intro h
  have hm : c2 ∈ natDecChars n := by
    rw [← h]
    simp
  have := (natDecChars_digit n c2 hm).2
  omega

theorem findSome?_cons_none {α β : Type} {f : α → Option β} {a : α}
    {l : List α} (h : f a = none) :
    List.findSome? f (a :: l) = List.findSome? f l := by
  rw [List.findSome?_cons, h]

theorem findSome?_cons_some {α β : Type} {f : α → Option β} {a : α}
    {l : List α} {b : β} (h : f a = some b) :
    List.findSome? f (a :: l) = some b := by
  rw [List.findSome?_cons, h]

theorem spellHexLowerPad_eq_of_long {n : ℕ}
    (hlen : ¬ (natHexCharsLower n).length < 2) :
    spellHexLowerPad n = spellHexLower n := by
  unfold spellHexLowerPad spellHexLower pad2
  rw [if_neg hlen]

theorem spellHexLowerPad_eq_of_short {n : ℕ}
    (hlen : (natHexCharsLower n).length < 2) :
    spellHexLowerPad n = ⟨'0' :: 'x' :: '0' :: natHexCharsLower n⟩ := by
  unfold spellHexLowerPad pad2
  rw [if_pos hlen]

theorem spellHexUpperPad_eq_of_long {n : ℕ}
    (hlen : ¬ (natHexCharsUpper n).length < 2) :
    spellHexUpperPad n = spellHexUpper n := by
  unfold spellHexUpperPad spellHexUpper pad2
  rw [if_neg hlen]

theorem spellHexUpperPad_eq_of_short {n : ℕ}
    (hlen : (natHexCharsUpper n).length < 2) :
    spellHexUpperPad n = ⟨'0' :: 'X' :: '0' :: natHexCharsUpper n⟩ := by
  unfold spellHexUpperPad pad2
  rw [if_pos hlen]

theorem smartGet_spellHexLowerPad (n : ℕ) (v : PyVal) :
    smartMapGetInt [(PyVal.vstr (spellHexLowerPad n), v)] n = some v := by
  rw [smartMapGetInt_vstr_singleton]
  simp only [List.findSome?_cons, alGet_vstr_singleton_eq _ v]

theorem smartGet_spellHexLower (n : ℕ) (v : PyVal) :
    smartMapGetInt [(PyVal.vstr (spellHexLower n), v)] n = some v := by
  by_cases hlen : (natHexCharsLower n).length < 2
  · have hne : spellHexLower n ≠ spellHexLowerPad n := by
      rw [spellHexLowerPad_eq_of_short hlen]
      exact string_mk_ne (fun he => pad_cons_ne 'x' (natHexCharsLower n) he.symm)
    rw [smartMapGetInt_vstr_singleton]
    simp only [List.findSome?_cons, alGet_vstr_singleton_ne _ _ v hne,
      alGet_vstr_singleton_eq _ v]
  · rw [smartMapGetInt_vstr_singleton, spellHexLowerPad_eq_of_long hlen]
    simp only [List.findSome?_cons, alGet_vstr_singleton_eq _ v]

theorem smartGet_spellHexUpperPad (n : ℕ) (v : PyVal) :
    smartMapGetInt [(PyVal.vstr (spellHexUpperPad n), v)] n = some v := by
  have hne1 : spellHexUpperPad n ≠ spellHexLowerPad n :=
    string_mk_ne (cons2_ne_of_ne (by decide) _ _)
  have hne2 : spellHexUpperPad n ≠ spellHexLower n :=
    string_mk_ne (cons2_ne_of_ne (by decide) _ _)
  rw [smartMapGetInt_vstr_singleton]
  simp only [List.findSome?_cons, alGet_vstr_singleton_ne _ _ v hne1,
    alGet_vstr_singleton_ne _ _ v hne2, alGet_vstr_singleton_eq _ v]

theorem smartGet_spellHexUpper (n : ℕ) (v : PyVal) :
    smartMapGetInt [(PyVal.vstr (spellHexUpper n), v)] n = some v := by
  have hne1 : spellHexUpper n ≠ spellHexLowerPad n :=
    string_mk_ne (cons2_ne_of_ne (by decide) _ _)
  have hne2 : spellHexUpper n ≠ spellHexLower n :=
    string_mk_ne (cons2_ne_of_ne (by decide) _ _)
  by_cases hlen : (natHexCharsUpper n).length < 2
  · have hne3 : spellHexUpper n ≠ spellHexUpperPad n := by
      rw [spellHexUpperPad_eq_of_short hlen]
      exact string_mk_ne (fun he => pad_cons_ne 'X' (natHexCharsUpper n) he.symm)
    rw [smartMapGetInt_vstr_singleton]
    simp only [List.findSome?_cons, alGet_vstr_singleton_ne _ _ v hne1,
      alGet_vstr_singleton_ne _ _ v hne2, alGet_vstr_singleton_ne _ _ v hne3,
      alGet_vstr_singleton_eq _ v]
  · rw [smartMapGetInt_vstr_singleton, spellHexUpperPad_eq_of_long hlen]
    simp only [List.findSome?_cons, alGet_vstr_singleton_ne _ _ v hne1,
      alGet_vstr_singleton_ne _ _ v hne2, alGet_vstr_singleton_eq _ v]

theorem smartGet_spellDec (n : ℕ) (v : PyVal) :
    smartMapGetInt [(PyVal.vstr (spellDec n), v)] n = some v := by
  have hx : (58 : ℕ) ≤ ('x' : Char).toNat := by decide
  have hX : (58 : ℕ) ≤ ('X' : Char).toNat := by decide
  have hne1 : spellDec n ≠ spellHexLowerPad n :=
    string_mk_ne (hex_prefixed_ne_dec hx _ n).symm
  have hne2 : spellDec n ≠ spellHexLower n :=
    string_mk_ne (hex_prefixed_ne_dec hx _ n).symm
  have hne3 : spellDec n ≠ spellHexUpperPad n :=
    string_mk_ne (hex_prefixed_ne_dec hX _ n).symm
  have hne4 : spellDec n ≠ spellHexUpper n :=
    string_mk_ne (hex_prefixed_ne_dec hX _ n).symm
  rw [smartMapGetInt_vstr_singleton]
  simp only [List.findSome?_cons, alGet_vstr_singleton_ne _ _ v hne1,
    alGet_vstr_singleton_ne _ _ v hne2, alGet_vstr_singleton_ne _ _ v hne3,
    alGet_vstr_singleton_ne _ _ v hne4, alGet_vstr_singleton_eq _ v]

/-- C5 (amended): hex-spelling resolution. For every code point `n` and value
`v`, an encoding map declaring the key in any of the spellings the lookup
helper tries — `"0x%02x"`, `"0x%x"`, `"0X%02X"`, `"0X%X"` (hex, padded or
unpadded, lower or upper prefix/digits) or the decimal `str(n)` — resolves to
the identical value `v` via `SmartEncodingMap.__getitem__` on the integer
code point: the helper tries exactly those five candidate spellings in order
before failing. Separately, Python's `int(k, 16)` parse used on hex-keyed
source maps resolves all hex spellings of the same code point — bare `"41"`,
prefixed `"0x41"`/`"0X41"`, padded or not — to the same integer. (The
original claim also asserted that a bare hex key such as `"41"` is found by
the integer lookup helper; it is not, see `bare_hex_key_not_found`.) -/
theorem hex_spelling_resolution (n : ℕ) (v : PyVal) :
    smartMapGetInt [(PyVal.vstr (spellHexLowerPad n), v)] n = some v
    ∧ smartMapGetInt [(PyVal.vstr (spellHexLower n), v)] n = some v
    ∧ smartMapGetInt [(PyVal.vstr (spellHexUpperPad n), v)] n = some v
    ∧ smartMapGetInt [(PyVal.vstr (spellHexUpper n), v)] n = some v
    ∧ smartMapGetInt [(PyVal.vstr (spellDec n), v)] n = some v
    ∧ parseHexPy (spellBareHexLower n) = some (n : ℤ)
    ∧ parseHexPy (spellHexLower n) = some (n : ℤ)
    ∧ parseHexPy (spellHexLowerPad n) = some (n : ℤ)
    ∧ parseHexPy (spellHexUpper n) = some (n : ℤ)
    ∧ parseHexPy (spellHexUpperPad n) = some (n : ℤ) :=
  ⟨smartGet_spellHexLowerPad n v, smartGet_spellHexLower n v,
    smartGet_spellHexUpperPad n v, smartGet_spellHexUpper n v,
    smartGet_spellDec n v, parseHexPy_spellBareHexLower n,
    parseHexPy_spellHexLower n, parseHexPy_spellHexLowerPad n,
    parseHexPy_spellHexUpper n, parseHexPy_spellHexUpperPad n⟩

/-- C5 counterexample: a map declaring the bare hex key `"41"` is NOT found
by the integer lookup helper `SmartEncodingMap.__getitem__` for code point
65, while the map keyed `"0x41"` is — the candidate list
`["0x%02x", "0x%x", "0X%02X", "0X%X", str(key)]` (models.py:84-90) never
includes the unprefixed hex spelling — even though `int("41", 16)` parses to
65 like the prefixed spellings. -/
theorem bare_hex_key_not_found :
    smartMapGetInt [(PyVal.vstr "41", PyVal.vstr "A")] 65 = none
    ∧ smartMapGetInt [(PyVal.vstr "0x41", PyVal.vstr "A")] 65 =
        some (PyVal.vstr "A")
    ∧ parseHexPy "41" = some 65 :=
  ⟨by decide, by decide, by decide⟩
